import Mathlib

/-!
Shallow embedding of the crossword CSP solver in `src/generate.py`
(`CrosswordCreator`), together with the parts of the Puzzle Model
(`crossword.py`, not present under `src/`) that the solver consumes,
modelled from the specification.

Python dictionaries become association lists, Python sets of words become
lists of words, strings become lists of characters, and the mutable
`self.domains` store is threaded explicitly through every operation.
String indexing `w[i]` is embedded as `List.getD w i ' '`; all theorems
that depend on character comparisons carry well-formedness hypotheses
keeping every index in range, so the default is never consulted there.
-/

namespace CrosswordCSP

/-- A word slot of the grid: start cell, required length, direction.
Equality is structural, as for `Variable` objects in the Puzzle Model. -/
structure Slot where
  row : Nat
  col : Nat
  length : Nat
  down : Bool
deriving DecidableEq

/-- A vocabulary word: a Python string, as its list of characters. -/
abbrev Word := List Char

/-- Modelled from the spec: `crossword.py` is not under `src/`.  The Puzzle
Model supplies the set of Variables, the vocabulary, and the overlap
relation mapping an ordered pair of distinct Variables to either no
overlap or a pair of character offsets. -/
structure Puzzle where
  vars : List Slot
  words : List Word
  overlaps : Slot → Slot → Option (Nat × Nat)

/-- Modelled from the spec: iterating `self.crossword.overlaps` yields its
keys, which are every ordered pair of distinct Variables. -/
def overlapKeys (p : Puzzle) : List (Slot × Slot) :=
  p.vars.bind (fun x =>
    (p.vars.filter (fun y => y != x)).map (fun y => (x, y)))

/-- Modelled from the spec: `neighbors(var)` returns the set of other
Variables that overlap `var`. -/
def neighbors (p : Puzzle) (x : Slot) : List Slot :=
  p.vars.filter (fun v => v != x && (p.overlaps v x).isSome)

/-- The Domain Store `self.domains`: a mapping from each Variable to its
current candidate-word set, embedded as an association list. -/
abbrev Domains := List (Slot × List Word)

/-- `self.domains[x]`: the current domain of `x` (`[]` for an absent key;
a missing key would raise in Python and is never reached by the solver). -/
def lookupD (d : Domains) (x : Slot) : List Word :=
  match d.find? (fun e => e.1 == x) with
  | some e => e.2
  | none => []

/-- `self.domains[x] = ws`: replace the binding of `x` (dictionaries have
no duplicate keys, so only the first matching entry is replaced). -/
def updateD : Domains → Slot → List Word → Domains
  | [], _, _ => []
  | e :: rest, x, ws => if e.1 == x then (x, ws) :: rest else e :: updateD rest x ws

/-- Total number of words across all domains; the termination measure of
`ac3Loop`. -/
def sizeD (d : Domains) : Nat := (d.map (fun e => e.2.length)).sum

/-- An Assignment: a mapping from Variables to chosen words, embedded as an
association list (new entries are consed on). -/
abbrev Assignment := List (Slot × Word)

/-- `assignment[x]` as an optional value. -/
def lookupA (a : Assignment) (x : Slot) : Option Word :=
  (a.find? (fun e => e.1 == x)).map (fun e => e.2)

/-- `x in assignment`: key membership. -/
def assignedB (a : Assignment) (x : Slot) : Bool :=
  (a.find? (fun e => e.1 == x)).isSome

/-- The domains built by `CrosswordCreator.__init__`: every Variable is
mapped to a copy of the vocabulary. -/
def initialDomains (p : Puzzle) : Domains :=
  p.vars.map (fun v => (v, p.words))

/-- `enforce_node_consistency`: for every Variable, drop from its domain
each word whose length differs from the Variable's length. -/
def enforce_node_consistency (d : Domains) : Domains :=
  d.map (fun e => (e.1, e.2.filter (fun w => w.length == e.1.length)))

/-- `make_domains_copy`: a value-level snapshot of the Domain Store (our
domains already have value semantics). -/
def make_domains_copy (d : Domains) : Domains := d

/-- The words of `x`'s domain that `revise(x, y)` keeps when `x` and `y`
overlap at `(o1, o2)`: those with an agreeing word in `y`'s domain. -/
def reviseKeep (d : Domains) (x y : Slot) (o1 o2 : Nat) : List Word :=
  (lookupD d x).filter (fun w =>
    (lookupD d y).any (fun yw => yw.getD o2 ' ' == w.getD o1 ' '))

/-- `revise(x, y)`: if `x` and `y` overlap at offsets `(o1, o2)`, remove
from `x`'s domain every word with no agreeing word in `y`'s domain; the
Python loop removes each unsupported word from a copy, which keeps exactly
the supported ones.  Returns whether a removal occurred, i.e. whether the
kept list is shorter, together with the updated store. -/
def revise (p : Puzzle) (d : Domains) (x y : Slot) : Bool × Domains :=
  match p.overlaps x y with
  | none => (false, d)
  | some (o1, o2) =>
    if (reviseKeep d x y o1 o2).length == (lookupD d x).length then (false, d)
    else (true, updateD d x (reviseKeep d x y o1 o2))

theorem lookupD_nil (x : Slot) : lookupD [] x = [] := rfl

theorem lookupD_cons (e : Slot × List Word) (d : Domains) (x : Slot) :
    lookupD (e :: d) x = if e.1 == x then e.2 else lookupD d x := by
  by_cases h : e.1 == x <;> simp [lookupD, List.find?, h]

theorem sizeD_updateD_found (d : Domains) (x : Slot) (ws : List Word)
    (h : (d.find? (fun e => e.1 == x)).isSome) :
    sizeD (updateD d x ws) + (lookupD d x).length = sizeD d + ws.length := by
  induction d with
  | nil => simp [List.find?] at h
  | cons e rest ih =>
    by_cases he : e.1 == x
    · simp [updateD, he, sizeD, lookupD, List.find?]
      omega
    · have hfind : List.find? (fun e => e.1 == x) (e :: rest) =
          List.find? (fun e => e.1 == x) rest :=
        List.find?_cons_of_neg _ (by simpa using he)
      have h' : (rest.find? (fun e => e.1 == x)).isSome := by rwa [hfind] at h
      have := ih h'
      simp [updateD, he, sizeD, lookupD, hfind] at this ⊢
      omega

theorem lookupD_ne_nil_found (d : Domains) (x : Slot)
    (h : lookupD d x ≠ []) : (d.find? (fun e => e.1 == x)).isSome := by
  unfold lookupD at h
  cases hf : d.find? (fun e => e.1 == x) <;> simp [hf] at h ⊢

theorem reviseKeep_length_lt (d : Domains) (x y : Slot) (o1 o2 : Nat)
    (hne : (reviseKeep d x y o1 o2).length ≠ (lookupD d x).length) :
    (reviseKeep d x y o1 o2).length < (lookupD d x).length := by
  have hle : (reviseKeep d x y o1 o2).length ≤ (lookupD d x).length :=
    List.length_filter_le _ _
  omega

theorem revise_size (p : Puzzle) (d : Domains) (x y : Slot) (d1 : Domains)
    (h : revise p d x y = (true, d1)) : sizeD d1 < sizeD d := by
  unfold revise at h
  cases ho : p.overlaps x y with
  | none => simp [ho] at h
  | some o =>
    obtain ⟨o1, o2⟩ := o
    simp only [ho] at h
    split at h
    · simp at h
    · next hne =>
      have hne' : (reviseKeep d x y o1 o2).length ≠ (lookupD d x).length := by
        simpa using hne
      have hlt := reviseKeep_length_lt d x y o1 o2 hne'
      have hnn : lookupD d x ≠ [] := by
        intro hnil
        rw [hnil] at hlt
        simp at hlt
      have hfound := lookupD_ne_nil_found d x hnn
      have hsz := sizeD_updateD_found d x (reviseKeep d x y o1 o2) hfound
      have hd1 : d1 = updateD d x (reviseKeep d x y o1 o2) :=
        (Prod.mk.injEq _ _ _ _ ▸ h).2.symm
      rw [hd1]
      omega

/-- The arcs `ac3` pushes back after `domain(x)` changed: `(z, x)` for
every neighbor `z` of `x`. -/
def requeueArcs (p : Puzzle) (x : Slot) : List (Slot × Slot) :=
  (neighbors p x).map (fun z => (z, x))

/-- The worklist loop of `ac3(arcs)`, the queue as a FIFO list: pop an arc
`(x, y)`, revise; on a change, fail if `domain(x)` emptied, otherwise push
`(z, x)` for every neighbor `z` of `x`. -/
def ac3Loop (p : Puzzle) (d : Domains) (q : List (Slot × Slot)) : Bool × Domains :=
  match q with
  | [] => (true, d)
  | (x, y) :: rest =>
    match hrev : revise p d x y with
    | (true, d1) =>
      if (lookupD d1 x).length == 0 then (false, d1)
      else ac3Loop p d1 (rest ++ requeueArcs p x)
    | (false, _) => ac3Loop p d rest
termination_by (sizeD d, q.length)
decreasing_by
  · exact Prod.Lex.left _ _ (revise_size p d x y d1 hrev)
  · exact Prod.Lex.right _ (Nat.lt_succ_self _)

/-- `ac3` with an explicit initial arc queue (Python wraps the list in a
`queue.Queue`; an explicitly passed queue is always truthy, so `if not
arcs` fires only for `None`). -/
def ac3 (p : Puzzle) (d : Domains) (q : List (Slot × Slot)) : Bool × Domains :=
  ac3Loop p d q

/-- `ac3()` with no initial arc set: seed the queue with every key of
`self.crossword.overlaps`. -/
def ac3Default (p : Puzzle) (d : Domains) : Bool × Domains :=
  ac3 p d (overlapKeys p)

/-- `get_neighbors_overlap_queue(var)`: every overlap key whose second
component is `var`. -/
def get_neighbors_overlap_queue (p : Puzzle) (var : Slot) : List (Slot × Slot) :=
  (overlapKeys p).filter (fun k => k.2 == var)

/-- `assignment_complete`: every key of `self.domains` is a key of the
assignment. -/
def assignment_complete (d : Domains) (a : Assignment) : Bool :=
  d.all (fun e => assignedB a e.1)

/-- `used_words.add(w)` on the Python set of already-seen words. -/
def usedWordsAdd (s : List Word) (w : Word) : List Word :=
  if w ∈ s then s else s ++ [w]

/-- The body of `consistent`'s check for one assigned Variable `v` holding
the non-empty word `w`: every assigned, non-empty neighbor must agree at
the overlap offsets (an overlap key can only be absent for a neighbor if
the relation is asymmetric; `consistent` then cannot index it and we keep
the check vacuous), and then the word length must match `v.length`. -/
def entryOK (p : Puzzle) (a : Assignment) (v : Slot) (w : Word) : Bool :=
  ((neighbors p v).all (fun n =>
    match lookupA a n with
    | none => true
    | some nw =>
      if nw.isEmpty then true
      else
        match p.overlaps v n with
        | none => true
        | some (o1, o2) => w.getD o1 ' ' == nw.getD o2 ' ')) &&
  (v.length == w.length)

/-- The loop of `consistent`: walk the keys of `self.domains`, skipping
Variables that are unassigned or whose assigned word is falsy (the empty
string); accumulate the set of used words and the count of assigned
Variables, returning `False` early on any overlap or length violation, and
finally compare the distinct-word count with the assigned count. -/
def consistentLoop (p : Puzzle) (a : Assignment) :
    Domains → List Word → Nat → Bool
  | [], used, count => used.length == count
  | e :: rest, used, count =>
    match lookupA a e.1 with
    | none => consistentLoop p a rest used count
    | some w =>
      if w.isEmpty then consistentLoop p a rest used count
      else if entryOK p a e.1 w then
        consistentLoop p a rest (usedWordsAdd used w) (count + 1)
      else false

/-- `consistent(assignment)`: distinct words, agreeing overlaps, matching
lengths — over the keys of `self.domains`. -/
def consistent (p : Puzzle) (d : Domains) (a : Assignment) : Bool :=
  consistentLoop p a d [] 0

/-- Python's `in` operator on a dict compares the probe against the keys.
In `order_domain_values` the probe `neigbor_word` is a word (a `str`)
while the assignment's keys are `Variable` objects, and in Python a `str`
never equals a `Variable`; the membership test is false for every word. -/
def wordIsAssignedKey (_ : Assignment) (_ : Word) : Bool := false

/-- The `word_scores[word]` computed by `order_domain_values`: over every
neighbor of `var` and every word of the neighbor's domain, count the
neighbor words that are not assignment keys and disagree at the overlap
offsets. -/
def conflictsScore (p : Puzzle) (d : Domains) (a : Assignment)
    (var : Slot) (w : Word) : Nat :=
  (neighbors p var).foldl (fun s n =>
    match p.overlaps var n with
    | none => s
    | some (o1, o2) =>
      (lookupD d n).foldl (fun s2 nw =>
        if wordIsAssignedKey a nw then s2
        else if w.getD o1 ' ' != nw.getD o2 ' ' then s2 + 1 else s2) s) 0

/-- `order_domain_values(var, assignment)`: the words of `var`'s domain
sorted ascending by their conflicts score (`sorted` with a key function is
a stable sort by the score). -/
def order_domain_values (p : Puzzle) (d : Domains) (var : Slot)
    (a : Assignment) : List Word :=
  (lookupD d var).mergeSort (fun w1 w2 =>
    decide (conflictsScore p d a var w1 ≤ conflictsScore p d a var w2))

/-- The first loop of `select_unassigned_variable`: collect the unassigned
Variables (keys of `self.domains`, in order) whose domain size equals the
running minimum (`float("inf")` before any is seen). -/
def selectLowestLoop (a : Assignment) :
    Domains → List Slot → Option Nat → List Slot × Option Nat
  | [], acc, low => (acc, low)
  | e :: rest, acc, none =>
    if assignedB a e.1 then selectLowestLoop a rest acc none
    else selectLowestLoop a rest [e.1] (some e.2.length)
  | e :: rest, acc, some m =>
    if assignedB a e.1 then selectLowestLoop a rest acc (some m)
    else if e.2.length < m then selectLowestLoop a rest [e.1] (some e.2.length)
    else if e.2.length == m then selectLowestLoop a rest (acc ++ [e.1]) (some m)
    else selectLowestLoop a rest acc (some m)

/-- The second loop of `select_unassigned_variable`: the first Variable of
the list attaining the running maximum neighbor count (`float("-inf")`
before any is seen; with an empty list Python would leave the result
unbound and raise, which the solver never reaches). -/
def selectMostNbrsLoop (p : Puzzle) :
    List Slot → Option (Slot × Nat) → Option Slot
  | [], best => best.map (fun b => b.1)
  | v :: rest, none => selectMostNbrsLoop p rest (some (v, (neighbors p v).length))
  | v :: rest, some (bv, bc) =>
    if bc < (neighbors p v).length then
      selectMostNbrsLoop p rest (some (v, (neighbors p v).length))
    else selectMostNbrsLoop p rest (some (bv, bc))

/-- `select_unassigned_variable(assignment)`: minimum remaining values,
ties broken by highest degree, then by first position. -/
def select_unassigned_variable (p : Puzzle) (d : Domains) (a : Assignment) :
    Option Slot :=
  selectMostNbrsLoop p (selectLowestLoop a d [] none).1 none

mutual

/-- `backtrack(assignment)`, with explicit domains state and a fuel
argument bounding the recursion depth (`solve` passes one more than the
number of Variables, which the depth never exceeds: each recursive call
assigns one more Variable). -/
def backtrackF (p : Puzzle) (fuel : Nat) (d : Domains) (a : Assignment) :
    Option Assignment × Domains :=
  match fuel with
  | 0 => (none, d)
  | Nat.succ f =>
    if assignment_complete d a then (some a, d)
    else
      match select_unassigned_variable p d a with
      | none => (none, d)
      | some var => tryValues p f d a var (order_domain_values p d var a)
termination_by (fuel, 0)

/-- The `for value in self.order_domain_values(...)` loop of `backtrack`:
tentatively assign, check consistency, snapshot the domains, collapse
`domain(var)` to the chosen value, run the incremental `ac3` (restoring
the snapshot if it fails), recurse, and on a falsy result (None, or an
empty dict) restore the snapshot and drop the tentative entry before
trying the next value. -/
def tryValues (p : Puzzle) (fuel : Nat) (d : Domains) (a : Assignment)
    (var : Slot) (values : List Word) : Option Assignment × Domains :=
  match values with
  | [] => (none, d)
  | v :: rest =>
    if consistent p d ((var, v) :: a) then
      match backtrackF p fuel
          (if (ac3 p (updateD d var [v]) (get_neighbors_overlap_queue p var)).1
           then (ac3 p (updateD d var [v]) (get_neighbors_overlap_queue p var)).2
           else make_domains_copy d)
          ((var, v) :: a) with
      | (some res, d3) =>
        if res.isEmpty then tryValues p fuel (make_domains_copy d) a var rest
        else (some res, d3)
      | (none, _) => tryValues p fuel (make_domains_copy d) a var rest
    else tryValues p fuel d a var rest
termination_by (fuel, 1 + values.length)

end

/-- `solve()`: enforce node consistency, run the full arc-consistency pass
(its result deliberately unchecked), then backtrack from the empty
assignment.  The returned pair is the result and the final Domain Store. -/
def solve (p : Puzzle) : Option Assignment × Domains :=
  let d0 := enforce_node_consistency (initialDomains p)
  let d1 := (ac3Default p d0).2
  backtrackF p (d1.length + 1) d1 []

/-! ### Association-list lemmas -/

theorem updateD_not_found (d : Domains) (x : Slot) (ws : List Word)
    (h : d.find? (fun e => e.1 == x) = none) : updateD d x ws = d := by
  induction d with
  | nil => rfl
  | cons e rest ih =>
    rw [List.find?_cons] at h
    cases he : (e.1 == x) with
    | true => simp [he] at h
    | false =>
      simp only [he] at h
      simp [updateD, he, ih h]

theorem keys_updateD (d : Domains) (x : Slot) (ws : List Word) :
    (updateD d x ws).map Prod.fst = d.map Prod.fst := by
  induction d with
  | nil => rfl
  | cons e rest ih =>
    by_cases he : e.1 == x
    · have : e.1 = x := by simpa using he
      simp [updateD, he, this]
    · simp [updateD, he, ih]

theorem lookupD_updateD_ne (d : Domains) (x : Slot) (ws : List Word)
    (y : Slot) (h : y ≠ x) : lookupD (updateD d x ws) y = lookupD d y := by
  induction d with
  | nil => rfl
  | cons e rest ih =>
    by_cases he : e.1 == x
    · have he' : e.1 = x := by simpa using he
      have hxy : ¬(x == y) = true := by simpa using Ne.symm h
      have hey : ¬(e.1 == y) = true := by
        rw [he']
        simpa using Ne.symm h
      simp [updateD, he, lookupD_cons, hxy, hey]
    · by_cases hey : e.1 == y
      · simp [updateD, he, lookupD_cons, hey]
      · simp [updateD, he, lookupD_cons, hey, ih]

theorem lookupD_updateD_self (d : Domains) (x : Slot) (ws : List Word)
    (h : (d.find? (fun e => e.1 == x)).isSome) :
    lookupD (updateD d x ws) x = ws := by
  induction d with
  | nil => simp [List.find?] at h
  | cons e rest ih =>
    by_cases he : e.1 == x
    · simp [updateD, he, lookupD_cons]
    · have hfind : List.find? (fun e => e.1 == x) (e :: rest) =
          List.find? (fun e => e.1 == x) rest :=
        List.find?_cons_of_neg _ (by simpa using he)
      rw [hfind] at h
      simp [updateD, he, lookupD_cons, ih h]

theorem mem_keys_iff_found (d : Domains) (x : Slot) :
    x ∈ d.map Prod.fst ↔ (d.find? (fun e => e.1 == x)).isSome := by
  induction d with
  | nil => simp [List.find?]
  | cons e rest ih =>
    cases he : (e.1 == x) with
    | true =>
      have h1 : e.1 = x := by simpa using he
      simp [List.find?_cons, he, h1]
    | false =>
      have h1 : ¬ e.1 = x := by simpa using he
      simp only [List.map_cons, List.mem_cons, List.find?_cons, he]
      constructor
      · rintro (h2 | h2)
        · exact absurd h2.symm h1
        · exact ih.mp h2
      · intro h2
        exact Or.inr (ih.mpr h2)

/-! ### `revise` lemmas -/

theorem revise_no_overlap (p : Puzzle) (d : Domains) (x y : Slot)
    (h : p.overlaps x y = none) : revise p d x y = (false, d) := by
  unfold revise; rw [h]

theorem revise_cases (p : Puzzle) (d : Domains) (x y : Slot) :
    revise p d x y = (false, d) ∨
    ∃ o1 o2, p.overlaps x y = some (o1, o2) ∧
      (reviseKeep d x y o1 o2).length ≠ (lookupD d x).length ∧
      revise p d x y = (true, updateD d x (reviseKeep d x y o1 o2)) := by
  cases ho : p.overlaps x y with
  | none => left; exact revise_no_overlap p d x y ho
  | some o =>
    obtain ⟨o1, o2⟩ := o
    by_cases hlen : (reviseKeep d x y o1 o2).length == (lookupD d x).length
    · left
      unfold revise
      simp [ho, hlen]
    · right
      refine ⟨o1, o2, rfl, by simpa using hlen, ?_⟩
      unfold revise
      simp [ho, hlen]

theorem revise_false_snd (p : Puzzle) (d : Domains) (x y : Slot)
    (h : (revise p d x y).1 = false) : (revise p d x y).2 = d := by
  rcases revise_cases p d x y with hc | ⟨o1, o2, _, _, hc⟩
  · rw [hc]
  · rw [hc] at h
    simp at h

theorem revise_true_shape (p : Puzzle) (d : Domains) (x y : Slot)
    (d1 : Domains) (h : revise p d x y = (true, d1)) :
    ∃ o1 o2, p.overlaps x y = some (o1, o2) ∧
      (reviseKeep d x y o1 o2).length ≠ (lookupD d x).length ∧
      d1 = updateD d x (reviseKeep d x y o1 o2) := by
  rcases revise_cases p d x y with hc | ⟨o1, o2, ho, hlen, hc⟩
  · rw [hc] at h
    simp at h
  · rw [hc] at h
    exact ⟨o1, o2, ho, hlen, ((Prod.mk.injEq _ _ _ _ ▸ h).2).symm⟩

theorem revise_true_found (d : Domains) (x y : Slot) (o1 o2 : Nat)
    (hlen : (reviseKeep d x y o1 o2).length ≠ (lookupD d x).length) :
    (d.find? (fun e => e.1 == x)).isSome := by
  apply lookupD_ne_nil_found
  intro hnil
  apply hlen
  unfold reviseKeep
  rw [hnil]
  rfl

theorem revise_true_lookup (p : Puzzle) (d : Domains) (x y : Slot)
    (d1 : Domains) (h : revise p d x y = (true, d1)) :
    ∃ o1 o2, p.overlaps x y = some (o1, o2) ∧
      lookupD d1 x = reviseKeep d x y o1 o2 := by
  obtain ⟨o1, o2, ho, hlen, hd1⟩ := revise_true_shape p d x y d1 h
  refine ⟨o1, o2, ho, ?_⟩
  rw [hd1, lookupD_updateD_self d x _ (revise_true_found d x y o1 o2 hlen)]

theorem revise_lookup_ne (p : Puzzle) (d : Domains) (x y z : Slot)
    (h : z ≠ x) : lookupD (revise p d x y).2 z = lookupD d z := by
  rcases revise_cases p d x y with hc | ⟨o1, o2, _, _, hc⟩
  · rw [hc]
  · rw [hc]
    exact lookupD_updateD_ne d x _ z h

theorem revise_lookup_sub (p : Puzzle) (d : Domains) (x y z : Slot) :
    ∀ w ∈ lookupD (revise p d x y).2 z, w ∈ lookupD d z := by
  by_cases hz : z = x
  · rw [hz]
    rcases hc : revise p d x y with ⟨b, d1⟩
    cases b with
    | false =>
      have hd : d1 = d := by
        have h2 := revise_false_snd p d x y (by rw [hc])
        rw [hc] at h2
        exact h2
      show ∀ w ∈ lookupD d1 x, w ∈ lookupD d x
      rw [hd]
      intro w hw; exact hw
    | true =>
      obtain ⟨o1, o2, _, hl⟩ := revise_true_lookup p d x y d1 hc
      show ∀ w ∈ lookupD d1 x, w ∈ lookupD d x
      rw [hl]
      intro w hw
      exact (List.mem_filter.mp hw).1
  · rw [revise_lookup_ne p d x y z hz]
    intro w hw; exact hw

theorem revise_keys (p : Puzzle) (d : Domains) (x y : Slot) :
    (revise p d x y).2.map Prod.fst = d.map Prod.fst := by
  rcases revise_cases p d x y with hc | ⟨o1, o2, _, _, hc⟩
  · rw [hc]
  · rw [hc]
    exact keys_updateD d x _

theorem revise_false_supported (p : Puzzle) (d : Domains) (x y : Slot)
    (o1 o2 : Nat) (ho : p.overlaps x y = some (o1, o2))
    (h : (revise p d x y).1 = false) :
    ∀ w ∈ lookupD d x,
      (lookupD d y).any (fun yw => yw.getD o2 ' ' == w.getD o1 ' ') = true := by
  unfold revise at h
  simp only [ho] at h
  split at h
  · next hlen =>
    have hsub : List.Sublist (reviseKeep d x y o1 o2) (lookupD d x) := by
      unfold reviseKeep
      exact List.filter_sublist _
    have heq : reviseKeep d x y o1 o2 = lookupD d x :=
      hsub.eq_of_length (by simpa using hlen)
    intro w hw
    have : w ∈ reviseKeep d x y o1 o2 := heq ▸ hw
    exact (List.mem_filter.mp this).2
  · simp at h

theorem revise_keeps_supported (p : Puzzle) (d : Domains) (x y : Slot)
    (w : Word) (hw : w ∈ lookupD d x)
    (hsup : ∀ o1 o2, p.overlaps x y = some (o1, o2) →
      ∃ yw ∈ lookupD d y, yw.getD o2 ' ' = w.getD o1 ' ') :
    w ∈ lookupD (revise p d x y).2 x := by
  rcases hc : revise p d x y with ⟨b, d1⟩
  cases b with
  | false =>
    have hd : d1 = d := by
      have h2 := revise_false_snd p d x y (by rw [hc])
      rw [hc] at h2
      exact h2
    show w ∈ lookupD d1 x
    rw [hd]
    exact hw
  | true =>
    obtain ⟨o1, o2, ho, hl⟩ := revise_true_lookup p d x y d1 hc
    show w ∈ lookupD d1 x
    rw [hl]
    obtain ⟨yw, hyw, hagree⟩ := hsup o1 o2 ho
    refine List.mem_filter.mpr ⟨hw, ?_⟩
    simp only [List.any_eq_true]
    exact ⟨yw, hyw, by simpa using hagree⟩

/-! ### `ac3` unfolding and invariants -/

theorem ac3Loop_nil (p : Puzzle) (d : Domains) : ac3Loop p d [] = (true, d) := by
  unfold ac3Loop
  rfl

theorem ac3Loop_cons_true (p : Puzzle) (d : Domains) (x y : Slot)
    (rest : List (Slot × Slot)) (d1 : Domains)
    (h : revise p d x y = (true, d1)) :
    ac3Loop p d ((x, y) :: rest) =
      if (lookupD d1 x).length == 0 then (false, d1)
      else ac3Loop p d1 (rest ++ requeueArcs p x) := by
  conv_lhs => unfold ac3Loop
  split
  · next d1' heq =>
    rw [h] at heq
    cases heq
    rfl
  · next d1' heq =>
    rw [h] at heq
    cases heq

theorem ac3Loop_cons_false (p : Puzzle) (d : Domains) (x y : Slot)
    (rest : List (Slot × Slot)) (d1 : Domains)
    (h : revise p d x y = (false, d1)) :
    ac3Loop p d ((x, y) :: rest) = ac3Loop p d rest := by
  conv_lhs => unfold ac3Loop
  split
  · next d1' heq =>
    rw [h] at heq
    cases heq
  · next d1' heq =>
    rfl

theorem ac3Loop_keys (p : Puzzle) (d : Domains) (q : List (Slot × Slot)) :
    (ac3Loop p d q).2.map Prod.fst = d.map Prod.fst := by
  induction d, q using ac3Loop.induct p with
  | case1 d => rw [ac3Loop_nil]
  | case2 d x y rest d1 hrev hempty =>
    rw [ac3Loop_cons_true p d x y rest d1 hrev]
    simp only [hempty, if_pos]
    have := revise_keys p d x y
    rw [hrev] at this
    exact this
  | case3 d x y rest d1 hrev hempty ih =>
    rw [ac3Loop_cons_true p d x y rest d1 hrev]
    simp only [if_neg hempty]
    have := revise_keys p d x y
    rw [hrev] at this
    rw [ih]
    exact this
  | case4 d x y rest d1 hrev ih =>
    rw [ac3Loop_cons_false p d x y rest d1 hrev]
    exact ih

theorem ac3Loop_sub (p : Puzzle) (d : Domains) (q : List (Slot × Slot)) :
    ∀ z, ∀ w ∈ lookupD (ac3Loop p d q).2 z, w ∈ lookupD d z := by
  induction d, q using ac3Loop.induct p with
  | case1 d =>
    rw [ac3Loop_nil]
    intro z w hw; exact hw
  | case2 d x y rest d1 hrev hempty =>
    rw [ac3Loop_cons_true p d x y rest d1 hrev]
    simp only [hempty, if_pos]
    intro z w hw
    have := revise_lookup_sub p d x y z w
    rw [hrev] at this
    exact this hw
  | case3 d x y rest d1 hrev hempty ih =>
    rw [ac3Loop_cons_true p d x y rest d1 hrev]
    simp only [if_neg hempty]
    intro z w hw
    have := revise_lookup_sub p d x y z w
    rw [hrev] at this
    exact this (ih z w hw)
  | case4 d x y rest d1 hrev ih =>
    rw [ac3Loop_cons_false p d x y rest d1 hrev]
    exact ih

/-- An arc whose two Variables actually overlap. -/
def overlapArc (p : Puzzle) (k : Slot × Slot) : Bool :=
  (p.overlaps k.1 k.2).isSome

theorem filter_requeueArcs (p : Puzzle) (x : Slot) :
    (requeueArcs p x).filter (overlapArc p) = requeueArcs p x := by
  apply List.filter_eq_self.mpr
  intro k hk
  unfold requeueArcs at hk
  obtain ⟨z, hz, hzk⟩ := List.mem_map.mp hk
  unfold neighbors at hz
  have h3 := (List.mem_filter.mp hz).2
  simp only [Bool.and_eq_true] at h3
  subst hzk
  unfold overlapArc
  simpa using h3.2

theorem revise_of_not_overlapArc (p : Puzzle) (d : Domains) (x y : Slot)
    (h : overlapArc p (x, y) = false) : revise p d x y = (false, d) := by
  apply revise_no_overlap
  unfold overlapArc at h
  simpa using h

/-- Dropping non-overlapping arcs from the worklist never changes `ac3`:
`revise` is a no-op on them. -/
theorem ac3Loop_filter_overlap (p : Puzzle) (d : Domains)
    (q : List (Slot × Slot)) :
    ac3Loop p d q = ac3Loop p d (q.filter (overlapArc p)) := by
  induction d, q using ac3Loop.induct p with
  | case1 d => rfl
  | case2 d x y rest d1 hrev hempty =>
    have hov : overlapArc p (x, y) = true := by
      obtain ⟨o1, o2, ho, _, _⟩ := revise_true_shape p d x y d1 hrev
      unfold overlapArc
      simp [ho]
    rw [List.filter_cons_of_pos hov]
    rw [ac3Loop_cons_true p d x y rest d1 hrev,
      ac3Loop_cons_true p d x y _ d1 hrev]
    simp only [hempty, if_pos]
  | case3 d x y rest d1 hrev hempty ih =>
    have hov : overlapArc p (x, y) = true := by
      obtain ⟨o1, o2, ho, _, _⟩ := revise_true_shape p d x y d1 hrev
      unfold overlapArc
      simp [ho]
    rw [List.filter_cons_of_pos hov]
    rw [ac3Loop_cons_true p d x y rest d1 hrev,
      ac3Loop_cons_true p d x y _ d1 hrev]
    simp only [if_neg hempty]
    rw [ih]
    rw [List.filter_append, filter_requeueArcs]
  | case4 d x y rest d1 hrev ih =>
    rw [ac3Loop_cons_false p d x y rest d1 hrev]
    cases hov : overlapArc p (x, y) with
    | false =>
      rw [List.filter_cons_of_neg (by simp [hov])]
      exact ih
    | true =>
      rw [List.filter_cons_of_pos hov]
      rw [ac3Loop_cons_false p d x y _ d1 hrev]
      exact ih

/-! ### The length invariant (node consistency) -/

/-- Every word of every Variable's domain has exactly that Variable's
length. -/
def LenOK (d : Domains) : Prop :=
  ∀ e ∈ d, ∀ w ∈ e.2, w.length = e.1.length

theorem LenOK_lookupD (d : Domains) (h : LenOK d) (x : Slot) :
    ∀ w ∈ lookupD d x, w.length = x.length := by
  intro w hw
  unfold lookupD at hw
  cases hf : d.find? (fun e => e.1 == x) with
  | none => rw [hf] at hw; simp at hw
  | some e =>
    rw [hf] at hw
    have hmem := List.mem_of_find?_eq_some hf
    have hkey : e.1 = x := by simpa using List.find?_some hf
    rw [← hkey]
    exact h e hmem w hw

theorem LenOK_updateD (d : Domains) (x : Slot) (ws : List Word)
    (h : LenOK d) (hws : ∀ w ∈ ws, w.length = x.length) :
    LenOK (updateD d x ws) := by
  induction d with
  | nil => intro e he; simp [updateD] at he
  | cons e0 rest ih =>
    by_cases he : e0.1 == x
    · unfold updateD
      rw [if_pos he]
      intro e he'
      rcases List.mem_cons.mp he' with h1 | h1
      · subst h1; exact hws
      · exact h e (List.mem_cons_of_mem _ h1)
    · unfold updateD
      rw [if_neg he]
      intro e he'
      rcases List.mem_cons.mp he' with h1 | h1
      · subst h1; exact h e (List.mem_cons_self _ _)
      · exact ih (fun e2 he2 => h e2 (List.mem_cons_of_mem _ he2)) e h1

theorem LenOK_enforce (d : Domains) : LenOK (enforce_node_consistency d) := by
  intro e he w hw
  unfold enforce_node_consistency at he
  obtain ⟨e0, _, he0⟩ := List.mem_map.mp he
  subst he0
  simp only at hw
  have := (List.mem_filter.mp hw).2
  simpa using this

theorem LenOK_revise (p : Puzzle) (d : Domains) (x y : Slot) (h : LenOK d) :
    LenOK (revise p d x y).2 := by
  rcases revise_cases p d x y with hc | ⟨o1, o2, _, _, hc⟩
  · rw [hc]; exact h
  · rw [hc]
    apply LenOK_updateD d x _ h
    intro w hw
    exact LenOK_lookupD d h x w (List.mem_filter.mp hw).1

theorem LenOK_ac3Loop (p : Puzzle) (d : Domains) (q : List (Slot × Slot))
    (h : LenOK d) : LenOK (ac3Loop p d q).2 := by
  revert h
  induction d, q using ac3Loop.induct p with
  | case1 d => intro h; rw [ac3Loop_nil]; exact h
  | case2 d x y rest d1 hrev hempty =>
    intro h
    rw [ac3Loop_cons_true p d x y rest d1 hrev]
    simp only [hempty, if_pos]
    have := LenOK_revise p d x y h
    rw [hrev] at this
    exact this
  | case3 d x y rest d1 hrev hempty ih =>
    intro h
    rw [ac3Loop_cons_true p d x y rest d1 hrev]
    simp only [if_neg hempty]
    apply ih
    have := LenOK_revise p d x y h
    rw [hrev] at this
    exact this
  | case4 d x y rest d1 hrev ih =>
    intro h
    rw [ac3Loop_cons_false p d x y rest d1 hrev]
    exact ih h

/-! ### Key-congruence: the search predicates read only the keys of the
Domain Store -/

theorem assignment_complete_eq_keys (d : Domains) (a : Assignment) :
    assignment_complete d a = (d.map Prod.fst).all (assignedB a) := by
  unfold assignment_complete
  induction d with
  | nil => rfl
  | cons e rest ih => simp [List.all_cons, ih]

theorem assignment_complete_congr (d1 d2 : Domains) (a : Assignment)
    (h : d1.map Prod.fst = d2.map Prod.fst) :
    assignment_complete d1 a = assignment_complete d2 a := by
  rw [assignment_complete_eq_keys, assignment_complete_eq_keys, h]

theorem consistentLoop_congr (p : Puzzle) (a : Assignment) :
    ∀ (d1 d2 : Domains), d1.map Prod.fst = d2.map Prod.fst →
    ∀ used count, consistentLoop p a d1 used count = consistentLoop p a d2 used count := by
  intro d1
  induction d1 with
  | nil =>
    intro d2 h used count
    cases d2 with
    | nil => rfl
    | cons e rest => simp at h
  | cons e rest ih =>
    intro d2 h used count
    cases d2 with
    | nil => simp at h
    | cons e2 rest2 =>
      simp only [List.map_cons, List.cons.injEq] at h
      unfold consistentLoop
      rw [h.1]
      cases lookupA a e2.1 with
      | none => exact ih rest2 h.2 used count
      | some w =>
        simp only
        by_cases hw : w.isEmpty
        · rw [if_pos hw, if_pos hw]
          exact ih rest2 h.2 used count
        · rw [if_neg hw, if_neg hw]
          by_cases hok : entryOK p a e2.1 w
          · rw [if_pos hok, if_pos hok]
            exact ih rest2 h.2 _ _
          · rw [if_neg hok, if_neg hok]

theorem consistent_congr (p : Puzzle) (d1 d2 : Domains) (a : Assignment)
    (h : d1.map Prod.fst = d2.map Prod.fst) :
    consistent p d1 a = consistent p d2 a :=
  consistentLoop_congr p a d1 d2 h [] 0

/-! ### `order_domain_values` basics -/

theorem order_domain_values_perm (p : Puzzle) (d : Domains) (var : Slot)
    (a : Assignment) : (order_domain_values p d var a).Perm (lookupD d var) :=
  List.mergeSort_perm _ _

theorem order_domain_values_mem (p : Puzzle) (d : Domains) (var : Slot)
    (a : Assignment) (w : Word) :
    w ∈ order_domain_values p d var a ↔ w ∈ lookupD d var :=
  (order_domain_values_perm p d var a).mem_iff

theorem order_domain_values_sorted (p : Puzzle) (d : Domains) (var : Slot)
    (a : Assignment) :
    (order_domain_values p d var a).Pairwise
      (fun w1 w2 => conflictsScore p d a var w1 ≤ conflictsScore p d a var w2) := by
  have h := @List.sorted_mergeSort Word
    (fun w1 w2 => decide (conflictsScore p d a var w1 ≤ conflictsScore p d a var w2))
    (fun x y z hxy hyz => by
      simp only [decide_eq_true_eq] at hxy hyz ⊢
      omega)
    (fun x y => by
      simp only [decide_eq_true_eq]
      by_cases hxy : conflictsScore p d a var x ≤ conflictsScore p d a var y
      · simp [hxy]
      · simp [hxy]
        omega)
    (lookupD d var)
  have := h.imp (fun hab => by simpa using hab)
  exact this

/-! ### `select_unassigned_variable` returns an unassigned key -/

theorem selectLowestLoop_sub (a : Assignment) :
    ∀ (d : Domains) (acc : List Slot) (low : Option Nat),
      ∀ v ∈ (selectLowestLoop a d acc low).1,
        v ∈ acc ∨ ∃ e ∈ d, v = e.1 ∧ assignedB a e.1 = false := by
  intro d
  induction d with
  | nil =>
    intro acc low v hv
    unfold selectLowestLoop at hv
    exact Or.inl hv
  | cons e rest ih =>
    intro acc low v hv
    have lift : ∀ hmem : (v ∈ acc ∨ ∃ e2 ∈ rest, v = e2.1 ∧ assignedB a e2.1 = false),
        v ∈ acc ∨ ∃ e2 ∈ e :: rest, v = e2.1 ∧ assignedB a e2.1 = false := by
      rintro (h1 | ⟨e2, he2, h2⟩)
      · exact Or.inl h1
      · exact Or.inr ⟨e2, List.mem_cons_of_mem _ he2, h2⟩
    have self : assignedB a e.1 = false →
        ∀ acc2 low2, v ∈ (selectLowestLoop a rest [e.1] low2).1 ∨ v ∈ (selectLowestLoop a rest (acc2 ++ [e.1]) low2).1 →
        True := fun _ _ _ _ => trivial
    cases low with
    | none =>
      unfold selectLowestLoop at hv
      by_cases ha : assignedB a e.1
      · rw [if_pos ha] at hv
        exact lift (ih acc none v hv)
      · rw [if_neg ha] at hv
        have ha' : assignedB a e.1 = false := by simpa using ha
        rcases ih [e.1] _ v hv with h1 | ⟨e2, he2, h2⟩
        · have hve : v = e.1 := by simpa using h1
          exact Or.inr ⟨e, List.mem_cons_self _ _, hve, ha'⟩
        · exact Or.inr ⟨e2, List.mem_cons_of_mem _ he2, h2⟩
    | some m =>
      unfold selectLowestLoop at hv
      by_cases ha : assignedB a e.1
      · rw [if_pos ha] at hv
        exact lift (ih acc (some m) v hv)
      · rw [if_neg ha] at hv
        have ha' : assignedB a e.1 = false := by simpa using ha
        by_cases h1 : e.2.length < m
        · rw [if_pos h1] at hv
          rcases ih [e.1] _ v hv with h2 | ⟨e2, he2, h2⟩
          · have hve : v = e.1 := by simpa using h2
            exact Or.inr ⟨e, List.mem_cons_self _ _, hve, ha'⟩
          · exact Or.inr ⟨e2, List.mem_cons_of_mem _ he2, h2⟩
        · rw [if_neg h1] at hv
          by_cases h2 : e.2.length == m
          · rw [if_pos h2] at hv
            rcases ih (acc ++ [e.1]) _ v hv with h3 | ⟨e2, he2, h3⟩
            · rcases List.mem_append.mp h3 with h4 | h4
              · exact Or.inl h4
              · have hve : v = e.1 := by simpa using h4
                exact Or.inr ⟨e, List.mem_cons_self _ _, hve, ha'⟩
            · exact Or.inr ⟨e2, List.mem_cons_of_mem _ he2, h3⟩
          · rw [if_neg h2] at hv
            exact lift (ih acc (some m) v hv)

theorem selectLowestLoop_keep (a : Assignment) :
    ∀ (d : Domains) (acc : List Slot) (m : Nat), acc ≠ [] →
      (selectLowestLoop a d acc (some m)).1 ≠ [] := by
  intro d
  induction d with
  | nil =>
    intro acc m hacc
    unfold selectLowestLoop
    exact hacc
  | cons e rest ih =>
    intro acc m hacc
    unfold selectLowestLoop
    by_cases ha : assignedB a e.1
    · rw [if_pos ha]; exact ih acc m hacc
    · rw [if_neg ha]
      by_cases h1 : e.2.length < m
      · rw [if_pos h1]; exact ih [e.1] _ (by simp)
      · rw [if_neg h1]
        by_cases h2 : e.2.length == m
        · rw [if_pos h2]; exact ih (acc ++ [e.1]) _ (by simp)
        · rw [if_neg h2]; exact ih acc m hacc

theorem selectLowestLoop_ne_nil (a : Assignment) :
    ∀ (d : Domains) (acc : List Slot) (low : Option Nat),
      (∀ m, low = some m → acc ≠ []) →
      (∃ e ∈ d, assignedB a e.1 = false) →
      (selectLowestLoop a d acc low).1 ≠ [] := by
  intro d
  induction d with
  | nil =>
    intro acc low _ h
    simp at h
  | cons e rest ih =>
    intro acc low hinv ⟨e2, he2, ha2⟩
    cases low with
    | none =>
      unfold selectLowestLoop
      by_cases ha : assignedB a e.1
      · rw [if_pos ha]
        rcases List.mem_cons.mp he2 with h1 | h1
        · subst h1; rw [ha2] at ha; simp at ha
        · exact ih acc none (by simp) ⟨e2, h1, ha2⟩
      · rw [if_neg ha]
        exact selectLowestLoop_keep a rest [e.1] _ (by simp)
    | some m =>
      exact selectLowestLoop_keep a (e :: rest) acc m (hinv m rfl)

theorem selectMostNbrsLoop_mem (p : Puzzle) :
    ∀ (l : List Slot) (best : Option (Slot × Nat)) (v : Slot),
      selectMostNbrsLoop p l best = some v →
      v ∈ l ∨ ∃ b, best = some b ∧ v = b.1 := by
  intro l
  induction l with
  | nil =>
    intro best v hv
    unfold selectMostNbrsLoop at hv
    cases best with
    | none => simp at hv
    | some b =>
      simp at hv
      exact Or.inr ⟨b, rfl, hv.symm⟩
  | cons x rest ih =>
    intro best v hv
    cases best with
    | none =>
      unfold selectMostNbrsLoop at hv
      rcases ih _ v hv with h1 | ⟨b, hb, h2⟩
      · exact Or.inl (List.mem_cons_of_mem _ h1)
      · cases hb
        exact Or.inl (by simp [h2])
    | some b =>
      obtain ⟨bv, bc⟩ := b
      unfold selectMostNbrsLoop at hv
      by_cases h1 : bc < (neighbors p x).length
      · rw [if_pos h1] at hv
        rcases ih _ v hv with h2 | ⟨b2, hb2, h3⟩
        · exact Or.inl (List.mem_cons_of_mem _ h2)
        · cases hb2
          exact Or.inl (by simp [h3])
      · rw [if_neg h1] at hv
        rcases ih _ v hv with h2 | ⟨b2, hb2, h3⟩
        · exact Or.inl (List.mem_cons_of_mem _ h2)
        · cases hb2
          exact Or.inr ⟨(bv, bc), rfl, h3⟩

theorem selectMostNbrsLoop_isSome (p : Puzzle) :
    ∀ (l : List Slot) (best : Option (Slot × Nat)),
      l ≠ [] ∨ best.isSome →
      (selectMostNbrsLoop p l best).isSome := by
  intro l
  induction l with
  | nil =>
    intro best h
    rcases h with h | h
    · simp at h
    · unfold selectMostNbrsLoop
      cases best with
      | none => simp at h
      | some b => simp
  | cons x rest ih =>
    intro best _
    cases best with
    | none =>
      unfold selectMostNbrsLoop
      exact ih _ (Or.inr (by simp))
    | some b =>
      obtain ⟨bv, bc⟩ := b
      unfold selectMostNbrsLoop
      by_cases h1 : bc < (neighbors p x).length
      · rw [if_pos h1]; exact ih _ (Or.inr (by simp))
      · rw [if_neg h1]; exact ih _ (Or.inr (by simp))

theorem select_spec (p : Puzzle) (d : Domains) (a : Assignment)
    (h : assignment_complete d a = false) :
    ∃ var, select_unassigned_variable p d a = some var ∧
      var ∈ d.map Prod.fst ∧ assignedB a var = false := by
  have hex : ∃ e ∈ d, assignedB a e.1 = false := by
    by_contra hc
    push_neg at hc
    have hall : assignment_complete d a = true := by
      unfold assignment_complete
      rw [List.all_eq_true]
      intro e he
      have := hc e he
      cases hb : assignedB a e.1 with
      | false => exact absurd hb this
      | true => rfl
    rw [hall] at h
    simp at h
  have h1 := selectLowestLoop_ne_nil a d [] none (by simp) hex
  have h2 := selectMostNbrsLoop_isSome p (selectLowestLoop a d [] none).1 none
    (Or.inl h1)
  obtain ⟨var, hvar⟩ := Option.isSome_iff_exists.mp h2
  refine ⟨var, hvar, ?_⟩
  rcases selectMostNbrsLoop_mem p _ _ _ hvar with h3 | ⟨b, hb, _⟩
  · rcases selectLowestLoop_sub a d [] none var h3 with h4 | ⟨e, he, h4, h5⟩
    · simp at h4
    · subst h4
      exact ⟨List.mem_map.mpr ⟨e, he, rfl⟩, h5⟩
  · simp at hb

/-! ### `backtrack` unfolding and the restoration (frame) property -/

theorem backtrackF_zero (p : Puzzle) (d : Domains) (a : Assignment) :
    backtrackF p 0 d a = (none, d) := by
  unfold backtrackF
  rfl

theorem backtrackF_succ (p : Puzzle) (f : Nat) (d : Domains) (a : Assignment) :
    backtrackF p (f + 1) d a =
      if assignment_complete d a then (some a, d)
      else
        match select_unassigned_variable p d a with
        | none => (none, d)
        | some var => tryValues p f d a var (order_domain_values p d var a) := by
  unfold backtrackF
  rfl

theorem tryValues_nil (p : Puzzle) (fuel : Nat) (d : Domains) (a : Assignment)
    (var : Slot) : tryValues p fuel d a var [] = (none, d) := by
  unfold tryValues
  rfl

theorem tryValues_cons (p : Puzzle) (fuel : Nat) (d : Domains) (a : Assignment)
    (var : Slot) (v : Word) (rest : List Word) :
    tryValues p fuel d a var (v :: rest) =
      if consistent p d ((var, v) :: a) then
        match backtrackF p fuel
            (if (ac3 p (updateD d var [v]) (get_neighbors_overlap_queue p var)).1
             then (ac3 p (updateD d var [v]) (get_neighbors_overlap_queue p var)).2
             else make_domains_copy d)
            ((var, v) :: a) with
        | (some res, d3) =>
          if res.isEmpty then tryValues p fuel (make_domains_copy d) a var rest
          else (some res, d3)
        | (none, _) => tryValues p fuel (make_domains_copy d) a var rest
      else tryValues p fuel d a var rest := by
  conv_lhs => unfold tryValues

theorem backtrackF_frame (p : Puzzle) :
    ∀ fuel d a, (backtrackF p fuel d a).1 = none → (backtrackF p fuel d a).2 = d := by
  have H := backtrackF.induct p
    (fun fuel d a =>
      (backtrackF p fuel d a).1 = none → (backtrackF p fuel d a).2 = d)
    (fun fuel d a var values =>
      (tryValues p fuel d a var values).1 = none →
        (tryValues p fuel d a var values).2 = d)
  apply H
  · intro d a _
    rw [backtrackF_zero]
  · intro d a f hcomp h
    rw [backtrackF_succ, if_pos hcomp] at h
    simp at h
  · intro d a f hcomp hsel _
    rw [backtrackF_succ, if_neg hcomp, hsel]
  · intro d a f hcomp var hsel ih h
    rw [backtrackF_succ, if_neg hcomp, hsel] at h ⊢
    exact ih h
  · intro fuel d a var _
    rw [tryValues_nil]
  · intro fuel d a var v rest hcons res d3 hbt hres ih1 ih2 h
    rw [dite_eq_ite] at hbt
    rw [tryValues_cons, if_pos hcons] at h ⊢
    rw [hbt] at h ⊢
    simp only [hres, if_pos] at h ⊢
    exact ih2 h
  · intro fuel d a var v rest hcons res d3 hbt hres ih1 h
    rw [dite_eq_ite] at hbt
    rw [tryValues_cons, if_pos hcons] at h
    rw [hbt] at h
    simp only [if_neg hres] at h
    simp at h
  · intro fuel d a var v rest hcons d4 hbt ih1 ih2 h
    rw [dite_eq_ite] at hbt
    rw [tryValues_cons, if_pos hcons] at h ⊢
    rw [hbt] at h ⊢
    exact ih2 h
  · intro fuel d a var v rest hcons ih h
    rw [tryValues_cons, if_neg hcons] at h ⊢
    exact ih h

theorem tryValues_frame (p : Puzzle) :
    ∀ fuel d a var values, (tryValues p fuel d a var values).1 = none →
      (tryValues p fuel d a var values).2 = d := by
  have H := tryValues.induct p
    (fun fuel d a =>
      (backtrackF p fuel d a).1 = none → (backtrackF p fuel d a).2 = d)
    (fun fuel d a var values =>
      (tryValues p fuel d a var values).1 = none →
        (tryValues p fuel d a var values).2 = d)
  apply H
  · intro d a _
    rw [backtrackF_zero]
  · intro d a f hcomp h
    rw [backtrackF_succ, if_pos hcomp] at h
    simp at h
  · intro d a f hcomp hsel _
    rw [backtrackF_succ, if_neg hcomp, hsel]
  · intro d a f hcomp var hsel ih h
    rw [backtrackF_succ, if_neg hcomp, hsel] at h ⊢
    exact ih h
  · intro fuel d a var _
    rw [tryValues_nil]
  · intro fuel d a var v rest hcons res d3 hbt hres ih1 ih2 h
    rw [dite_eq_ite] at hbt
    rw [tryValues_cons, if_pos hcons] at h ⊢
    rw [hbt] at h ⊢
    simp only [hres, if_pos] at h ⊢
    exact ih2 h
  · intro fuel d a var v rest hcons res d3 hbt hres ih1 h
    rw [dite_eq_ite] at hbt
    rw [tryValues_cons, if_pos hcons] at h
    rw [hbt] at h
    simp only [if_neg hres] at h
    simp at h
  · intro fuel d a var v rest hcons d4 hbt ih1 ih2 h
    rw [dite_eq_ite] at hbt
    rw [tryValues_cons, if_pos hcons] at h ⊢
    rw [hbt] at h ⊢
    exact ih2 h
  · intro fuel d a var v rest hcons ih h
    rw [tryValues_cons, if_neg hcons] at h ⊢
    exact ih h

/-! ### Keys preservation and soundness of `backtrack` -/

theorem ac3_keys (p : Puzzle) (d : Domains) (q : List (Slot × Slot)) :
    (ac3 p d q).2.map Prod.fst = d.map Prod.fst :=
  ac3Loop_keys p d q

/-- The Domain Store passed to the recursive `backtrack` call: the pruned
store when the incremental `ac3` succeeded, the snapshot otherwise. -/
def domainsAfterStep (p : Puzzle) (d : Domains) (var : Slot) (v : Word) :
    Domains :=
  if (ac3 p (updateD d var [v]) (get_neighbors_overlap_queue p var)).1
  then (ac3 p (updateD d var [v]) (get_neighbors_overlap_queue p var)).2
  else make_domains_copy d

theorem keys_domainsAfterStep (p : Puzzle) (d : Domains) (var : Slot)
    (v : Word) :
    (domainsAfterStep p d var v).map Prod.fst = d.map Prod.fst := by
  unfold domainsAfterStep
  split
  · rw [ac3_keys, keys_updateD]
  · rfl

theorem sub_domainsAfterStep (p : Puzzle) (d : Domains) (var : Slot)
    (v : Word) (hv : v ∈ lookupD d var) :
    ∀ z, ∀ w ∈ lookupD (domainsAfterStep p d var v) z, w ∈ lookupD d z := by
  intro z w hw
  unfold domainsAfterStep at hw
  split at hw
  · have h1 := ac3Loop_sub p (updateD d var [v])
      (get_neighbors_overlap_queue p var) z w hw
    by_cases hz : z = var
    · subst hz
      rw [lookupD_updateD_self d z [v] (lookupD_ne_nil_found d z
        (by intro hnil; rw [hnil] at hv; simp at hv))] at h1
      have : w = v := by simpa using h1
      rw [this]
      exact hv
    · rwa [lookupD_updateD_ne d var [v] z hz] at h1
  · exact hw

theorem tryValues_cons_eq (p : Puzzle) (fuel : Nat) (d : Domains)
    (a : Assignment) (var : Slot) (v : Word) (rest : List Word) :
    tryValues p fuel d a var (v :: rest) =
      if consistent p d ((var, v) :: a) then
        match backtrackF p fuel (domainsAfterStep p d var v) ((var, v) :: a) with
        | (some res, d3) =>
          if res.isEmpty then tryValues p fuel (make_domains_copy d) a var rest
          else (some res, d3)
        | (none, _) => tryValues p fuel (make_domains_copy d) a var rest
      else tryValues p fuel d a var rest := by
  rw [tryValues_cons]
  rfl

theorem backtrackF_sound (p : Puzzle) :
    ∀ fuel d a res d3, backtrackF p fuel d a = (some res, d3) →
      assignment_complete d res = true ∧
      (res = a ∨ consistent p d res = true) ∧
      a.IsSuffix res ∧
      (∀ e ∈ res, e ∈ a ∨ e.2 ∈ lookupD d e.1) := by
  have H := backtrackF.induct p
    (fun fuel d a => ∀ res d3, backtrackF p fuel d a = (some res, d3) →
      assignment_complete d res = true ∧
      (res = a ∨ consistent p d res = true) ∧
      a.IsSuffix res ∧
      (∀ e ∈ res, e ∈ a ∨ e.2 ∈ lookupD d e.1))
    (fun fuel d a var values => (∀ w ∈ values, w ∈ lookupD d var) →
      ∀ res d3, tryValues p fuel d a var values = (some res, d3) →
      assignment_complete d res = true ∧
      consistent p d res = true ∧
      a.IsSuffix res ∧
      (∀ e ∈ res, e ∈ a ∨ e.2 ∈ lookupD d e.1))
  apply H
  · intro d a res d3 h
    rw [backtrackF_zero] at h
    simp at h
  · intro d a f hcomp res d3 h
    rw [backtrackF_succ, if_pos hcomp] at h
    obtain ⟨h1, h2⟩ := Prod.mk.injEq _ _ _ _ ▸ h
    obtain rfl : a = res := by simpa using h1
    exact ⟨hcomp, Or.inl rfl, List.suffix_refl _, fun e he => Or.inl he⟩
  · intro d a f hcomp hsel res d3 h
    rw [backtrackF_succ, if_neg hcomp, hsel] at h
    simp at h
  · intro d a f hcomp var hsel ih res d3 h
    rw [backtrackF_succ, if_neg hcomp, hsel] at h
    have hvals : ∀ w ∈ order_domain_values p d var a, w ∈ lookupD d var :=
      fun w hw => (order_domain_values_mem p d var a w).mp hw
    obtain ⟨h1, h2, h3, h4⟩ := ih hvals res d3 h
    exact ⟨h1, Or.inr h2, h3, h4⟩
  · intro fuel d a var _ res d3 h
    rw [tryValues_nil] at h
    simp at h
  · intro fuel d a var v rest hcons res0 d30 hbt hres ih1 ih2 hvals res d3 h
    rw [dite_eq_ite] at hbt
    rw [tryValues_cons, if_pos hcons, hbt] at h
    simp only [hres, if_pos] at h
    have hvals2 : ∀ w ∈ rest, w ∈ lookupD (make_domains_copy d) var :=
      fun w hw => hvals w (List.mem_cons_of_mem _ hw)
    exact ih2 hvals2 res d3 h
  · intro fuel d a var v rest hcons res0 d30 hbt hres ih1 hvals res d3 h
    obtain ⟨t1, t2, t3, t4⟩ := ih1 res0 d30 hbt
    have s1 : assignment_complete (domainsAfterStep p d var v) res0 = true := t1
    have s2 : res0 = (var, v) :: a ∨
        consistent p (domainsAfterStep p d var v) res0 = true := t2
    have s4 : ∀ e ∈ res0, e ∈ (var, v) :: a ∨
        e.2 ∈ lookupD (domainsAfterStep p d var v) e.1 := t4
    rw [dite_eq_ite] at hbt
    rw [tryValues_cons, if_pos hcons, hbt] at h
    simp only [if_neg hres] at h
    obtain ⟨hr, hd⟩ := Prod.mk.injEq _ _ _ _ ▸ h
    obtain rfl : res0 = res := by simpa using hr
    have hkeys := keys_domainsAfterStep p d var v
    have hvmem : v ∈ lookupD d var := hvals v (List.mem_cons_self _ _)
    refine ⟨?_, ?_, ?_, ?_⟩
    · rw [← assignment_complete_congr (domainsAfterStep p d var v) d res0 hkeys]
      exact s1
    · rcases s2 with h5 | h5
      · rw [h5]
        exact hcons
      · rw [← consistent_congr p (domainsAfterStep p d var v) d res0 hkeys]
        exact h5
    · exact (List.suffix_cons (var, v) a).trans t3
    · intro e he
      rcases s4 e he with h5 | h5
      · rcases List.mem_cons.mp h5 with h6 | h6
        · subst h6
          exact Or.inr hvmem
        · exact Or.inl h6
      · exact Or.inr (sub_domainsAfterStep p d var v hvmem e.1 e.2 h5)
  · intro fuel d a var v rest hcons d4 hbt ih1 ih2 hvals res d3 h
    rw [dite_eq_ite] at hbt
    rw [tryValues_cons, if_pos hcons, hbt] at h
    have hvals2 : ∀ w ∈ rest, w ∈ lookupD (make_domains_copy d) var :=
      fun w hw => hvals w (List.mem_cons_of_mem _ hw)
    exact ih2 hvals2 res d3 h
  · intro fuel d a var v rest hcons ih hvals res d3 h
    rw [tryValues_cons, if_neg hcons] at h
    have hvals2 : ∀ w ∈ rest, w ∈ lookupD d var :=
      fun w hw => hvals w (List.mem_cons_of_mem _ hw)
    exact ih hvals2 res d3 h

/-! ### Well-formedness of the (spec-modelled) Puzzle Model -/

/-- One overlap key is well-formed: symmetric with swapped offsets, and
offsets within the two Variables' lengths. -/
def overlapOK (p : Puzzle) (x y : Slot) : Bool :=
  match p.overlaps x y with
  | none => true
  | some (o1, o2) =>
    (p.overlaps y x == some (o2, o1)) &&
      decide (o1 < x.length) && decide (o2 < y.length)

/-- Well-formed Puzzle Model: distinct Variables, an irreflexive and
symmetric overlap relation whose offsets are in range, and word slots
spanning at least one cell. -/
def WFP (p : Puzzle) : Prop :=
  p.vars.Nodup ∧
  (∀ x ∈ p.vars, p.overlaps x x = none) ∧
  (∀ x ∈ p.vars, ∀ y ∈ p.vars, overlapOK p x y = true) ∧
  (∀ x ∈ p.vars, 0 < x.length)

theorem WFP_overlap (p : Puzzle) (h : WFP p) (x y : Slot) (o1 o2 : Nat)
    (hx : x ∈ p.vars) (hy : y ∈ p.vars)
    (ho : p.overlaps x y = some (o1, o2)) :
    p.overlaps y x = some (o2, o1) ∧ o1 < x.length ∧ o2 < y.length := by
  have h2 := h.2.2.1 x hx y hy
  unfold overlapOK at h2
  rw [ho] at h2
  simp only [Bool.and_eq_true, beq_iff_eq, decide_eq_true_eq] at h2
  exact ⟨h2.1.1, h2.1.2, h2.2⟩

theorem WFP_overlap_ne (p : Puzzle) (h : WFP p) (x y : Slot) (o : Nat × Nat)
    (hx : x ∈ p.vars) (ho : p.overlaps x y = some o) : x ≠ y := by
  intro heq
  subst heq
  rw [h.2.1 x hx] at ho
  simp at ho

theorem mem_neighbors_iff (p : Puzzle) (x z : Slot) :
    z ∈ neighbors p x ↔ z ∈ p.vars ∧ z ≠ x ∧ (p.overlaps z x).isSome := by
  unfold neighbors
  rw [List.mem_filter]
  simp [and_assoc]

/-! ### Characterisation of `consistent` -/

/-- The word that the `consistent` loop registers for one Domain-Store
entry: its assigned word when present and truthy. -/
def assignedWord (a : Assignment) (e : Slot × List Word) : Option Word :=
  (lookupA a e.1).bind (fun w => if w.isEmpty then none else some w)

theorem assignedWord_none (a : Assignment) (e : Slot × List Word)
    (hl : lookupA a e.1 = none) : assignedWord a e = none := by
  unfold assignedWord
  rw [hl]
  rfl

theorem assignedWord_empty (a : Assignment) (e : Slot × List Word) (w : Word)
    (hl : lookupA a e.1 = some w) (hemp : w.isEmpty) :
    assignedWord a e = none := by
  unfold assignedWord
  rw [hl, Option.some_bind, if_pos hemp]

theorem assignedWord_some (a : Assignment) (e : Slot × List Word) (w : Word)
    (hl : lookupA a e.1 = some w) (hemp : ¬ w.isEmpty) :
    assignedWord a e = some w := by
  unfold assignedWord
  rw [hl, Option.some_bind, if_neg hemp]

theorem assignedWord_eq_some (a : Assignment) (e : Slot × List Word)
    (w : Word) :
    assignedWord a e = some w ↔ lookupA a e.1 = some w ∧ w ≠ [] := by
  constructor
  · intro hw
    unfold assignedWord at hw
    cases hl : lookupA a e.1 with
    | none => rw [hl] at hw; simp at hw
    | some w0 =>
      rw [hl, Option.some_bind] at hw
      by_cases hemp : w0.isEmpty
      · rw [if_pos hemp] at hw
        simp at hw
      · rw [if_neg hemp] at hw
        obtain rfl : w0 = w := by simpa using hw
        exact ⟨rfl, by simpa [List.isEmpty_iff] using hemp⟩
  · rintro ⟨hl, hne⟩
    exact assignedWord_some a e w hl (by simpa [List.isEmpty_iff] using hne)

/-- The words that the `consistent` loop registers, in key order. -/
def assignedWords (a : Assignment) (d : Domains) : List Word :=
  d.filterMap (assignedWord a)

/-- All entries of the store pass the per-Variable checks of `consistent`
(vacuously for unassigned or falsy entries). -/
def entriesOK (p : Puzzle) (a : Assignment) (d : Domains) : Bool :=
  d.all (fun e =>
    match lookupA a e.1 with
    | none => true
    | some w => w.isEmpty || entryOK p a e.1 w)

theorem mem_assignedWords (a : Assignment) (d : Domains) (w : Word) :
    w ∈ assignedWords a d ↔
      ∃ v ∈ d.map Prod.fst, lookupA a v = some w ∧ w ≠ [] := by
  unfold assignedWords
  rw [List.mem_filterMap]
  constructor
  · rintro ⟨e, he, hw⟩
    obtain ⟨h1, h2⟩ := (assignedWord_eq_some a e w).mp hw
    exact ⟨e.1, List.mem_map.mpr ⟨e, he, rfl⟩, h1, h2⟩
  · rintro ⟨v, hv, hl, hne⟩
    obtain ⟨e, he, rfl⟩ := List.mem_map.mp hv
    exact ⟨e, he, (assignedWord_eq_some a e w).mpr ⟨hl, hne⟩⟩

theorem consistentLoop_cons_none (p : Puzzle) (a : Assignment)
    (e : Slot × List Word) (rest : Domains) (used : List Word) (count : Nat)
    (hl : lookupA a e.1 = none) :
    consistentLoop p a (e :: rest) used count =
      consistentLoop p a rest used count := by
  conv_lhs => unfold consistentLoop
  rw [hl]

theorem consistentLoop_cons_some (p : Puzzle) (a : Assignment)
    (e : Slot × List Word) (rest : Domains) (used : List Word) (count : Nat)
    (w : Word) (hl : lookupA a e.1 = some w) :
    consistentLoop p a (e :: rest) used count =
      (if w.isEmpty then consistentLoop p a rest used count
       else if entryOK p a e.1 w then
         consistentLoop p a rest (usedWordsAdd used w) (count + 1)
       else false) := by
  conv_lhs => unfold consistentLoop
  rw [hl]

theorem consistentLoop_eq (p : Puzzle) (a : Assignment) :
    ∀ (d : Domains) (used : List Word) (count : Nat),
      consistentLoop p a d used count =
        (entriesOK p a d &&
          ((assignedWords a d).foldl usedWordsAdd used).length ==
            (count + (assignedWords a d).length)) := by
  intro d
  induction d with
  | nil =>
    intro used count
    unfold consistentLoop entriesOK assignedWords
    simp
  | cons e rest ih =>
    intro used count
    cases hl : lookupA a e.1 with
    | none =>
      rw [consistentLoop_cons_none p a e rest used count hl]
      have h1 : entriesOK p a (e :: rest) = entriesOK p a rest := by
        unfold entriesOK
        rw [List.all_cons, hl]
        simp
      have h2 : assignedWords a (e :: rest) = assignedWords a rest := by
        unfold assignedWords
        rw [List.filterMap_cons, assignedWord_none a e hl]
      rw [h1, h2, ih]
    | some w =>
      rw [consistentLoop_cons_some p a e rest used count w hl]
      by_cases hemp : w.isEmpty
      · rw [if_pos hemp]
        have h1 : entriesOK p a (e :: rest) = entriesOK p a rest := by
          unfold entriesOK
          rw [List.all_cons, hl]
          simp [hemp]
        have h2 : assignedWords a (e :: rest) = assignedWords a rest := by
          unfold assignedWords
          rw [List.filterMap_cons, assignedWord_empty a e w hl hemp]
        rw [h1, h2, ih]
      · rw [if_neg hemp]
        have h2 : assignedWords a (e :: rest) = w :: assignedWords a rest := by
          unfold assignedWords
          rw [List.filterMap_cons, assignedWord_some a e w hl hemp]
        by_cases hok : entryOK p a e.1 w
        · rw [if_pos hok]
          have h1 : entriesOK p a (e :: rest) = entriesOK p a rest := by
            unfold entriesOK
            rw [List.all_cons, hl]
            simp [hok]
          rw [h1, h2, ih]
          simp only [List.foldl_cons]
          have : count + (w :: assignedWords a rest).length =
              (count + 1) + (assignedWords a rest).length := by
            simp
            omega
          rw [this]
        · rw [if_neg hok]
          have h1 : entriesOK p a (e :: rest) = false := by
            unfold entriesOK
            rw [List.all_cons, hl]
            simp [hok, hemp]
          rw [h1]
          simp

theorem mem_usedWordsAdd (s : List Word) (w x : Word) :
    x ∈ usedWordsAdd s w ↔ x ∈ s ∨ x = w := by
  unfold usedWordsAdd
  by_cases h : w ∈ s
  · rw [if_pos h]
    constructor
    · exact Or.inl
    · rintro (h1 | rfl)
      · exact h1
      · exact h
  · rw [if_neg h]
    simp

theorem nodup_usedWordsAdd (s : List Word) (w : Word) (h : s.Nodup) :
    (usedWordsAdd s w).Nodup := by
  unfold usedWordsAdd
  by_cases hw : w ∈ s
  · rw [if_pos hw]; exact h
  · rw [if_neg hw]
    simp [List.nodup_append, h, hw]

theorem length_usedWordsAdd (s : List Word) (w : Word) :
    (usedWordsAdd s w).length = if w ∈ s then s.length else s.length + 1 := by
  unfold usedWordsAdd
  by_cases h : w ∈ s
  · rw [if_pos h, if_pos h]
  · rw [if_neg h, if_neg h]
    simp

theorem usedFold_length_le (ws : List Word) :
    ∀ s : List Word, (ws.foldl usedWordsAdd s).length ≤ s.length + ws.length := by
  induction ws with
  | nil => intro s; simp
  | cons w rest ih =>
    intro s
    rw [List.foldl_cons]
    have h1 := ih (usedWordsAdd s w)
    rw [length_usedWordsAdd] at h1
    by_cases h : w ∈ s
    · rw [if_pos h] at h1
      simp only [List.length_cons]
      omega
    · rw [if_neg h] at h1
      simp only [List.length_cons]
      omega

theorem usedFold_length_eq_iff (ws : List Word) :
    ∀ s : List Word, s.Nodup →
      ((ws.foldl usedWordsAdd s).length = s.length + ws.length ↔
        (ws.Nodup ∧ ∀ w ∈ ws, w ∉ s)) := by
  induction ws with
  | nil => intro s _; simp
  | cons w rest ih =>
    intro s hs
    rw [List.foldl_cons]
    by_cases h : w ∈ s
    · have h1 := usedFold_length_le rest (usedWordsAdd s w)
      rw [length_usedWordsAdd, if_pos h] at h1
      constructor
      · intro h2
        simp only [List.length_cons] at h2
        omega
      · rintro ⟨_, h3⟩
        exact absurd h (h3 w (List.mem_cons_self _ _))
    · have hadd : (usedWordsAdd s w).length = s.length + 1 := by
        rw [length_usedWordsAdd, if_neg h]
      have hnd : (usedWordsAdd s w).Nodup := nodup_usedWordsAdd s w hs
      have h2 := ih (usedWordsAdd s w) hnd
      rw [hadd] at h2
      constructor
      · intro h3
        simp only [List.length_cons] at h3
        have h4 : (rest.foldl usedWordsAdd (usedWordsAdd s w)).length =
            s.length + 1 + rest.length := by omega
        obtain ⟨h5, h6⟩ := h2.mp h4
        have hwrest : w ∉ rest := by
          intro hw
          exact absurd ((mem_usedWordsAdd s w w).mpr (Or.inr rfl)) (h6 w hw)
        refine ⟨List.nodup_cons.mpr ⟨hwrest, h5⟩, ?_⟩
        intro x hx
        rcases List.mem_cons.mp hx with rfl | hx2
        · exact h
        · intro hxs
          exact absurd ((mem_usedWordsAdd s w x).mpr (Or.inl hxs)) (h6 x hx2)
      · rintro ⟨h3, h4⟩
        obtain ⟨hwrest, h5⟩ := List.nodup_cons.mp h3
        have h6 : ∀ x ∈ rest, x ∉ usedWordsAdd s w := by
          intro x hx hxadd
          rcases (mem_usedWordsAdd s w x).mp hxadd with h7 | rfl
          · exact absurd h7 (h4 x (List.mem_cons_of_mem _ hx))
          · exact absurd hx hwrest
        have h7 := h2.mpr ⟨h5, h6⟩
        simp only [List.length_cons]
        omega

theorem consistent_eq (p : Puzzle) (d : Domains) (a : Assignment) :
    consistent p d a =
      (entriesOK p a d && ((assignedWords a d).Nodup : Bool)) := by
  unfold consistent
  rw [consistentLoop_eq]
  congr 1
  have h := usedFold_length_eq_iff (assignedWords a d) [] (by simp)
  simp only [List.length_nil, Nat.zero_add] at h
  by_cases hnd : (assignedWords a d).Nodup
  · have := h.mpr ⟨hnd, by simp⟩
    simp [hnd, this]
  · have : (((assignedWords a d).foldl usedWordsAdd []).length =
        (assignedWords a d).length) → False := by
      intro hc
      exact hnd (h.mp hc).1
    rw [decide_eq_false hnd]
    cases hc : (((assignedWords a d).foldl usedWordsAdd []).length ==
        (0 + (assignedWords a d).length)) with
    | false => rfl
    | true =>
      exfalso
      apply this
      have h8 : ((assignedWords a d).foldl usedWordsAdd []).length =
          0 + (assignedWords a d).length := by simpa using hc
      omega

/-! ### The specification's three consistency conditions -/

/-- Condition (a) of the spec: assigned words of distinct Variables are
pairwise distinct. -/
def PairwiseDistinctWords (p : Puzzle) (a : Assignment) : Prop :=
  ∀ v1 ∈ p.vars, ∀ v2 ∈ p.vars, v1 ≠ v2 →
    ∀ w1 w2, lookupA a v1 = some w1 → lookupA a v2 = some w2 → w1 ≠ w2

/-- Condition (b) of the spec: every pair of assigned Variables that
overlap agree at the overlap offsets. -/
def OverlapsAgree (p : Puzzle) (a : Assignment) : Prop :=
  ∀ v1 ∈ p.vars, ∀ v2 ∈ p.vars, ∀ o1 o2, p.overlaps v1 v2 = some (o1, o2) →
    ∀ w1 w2, lookupA a v1 = some w1 → lookupA a v2 = some w2 →
      w1.getD o1 ' ' = w2.getD o2 ' '

/-- Condition (c) of the spec: every assigned word's length equals its
Variable's length. -/
def LengthsMatch (p : Puzzle) (a : Assignment) : Prop :=
  ∀ v ∈ p.vars, ∀ w, lookupA a v = some w → w.length = v.length

/-- The per-key check of `consistent`, keyed by the Variable alone. -/
def keyOK (p : Puzzle) (a : Assignment) (v : Slot) : Bool :=
  match lookupA a v with
  | none => true
  | some w => w.isEmpty || entryOK p a v w

theorem entriesOK_eq_keys (p : Puzzle) (a : Assignment) (d : Domains) :
    entriesOK p a d = (d.map Prod.fst).all (keyOK p a) := by
  unfold entriesOK keyOK
  induction d with
  | nil => rfl
  | cons e rest ih => simp [List.all_cons, ih]

theorem keyOK_true_iff (p : Puzzle) (a : Assignment) (v : Slot) :
    keyOK p a v = true ↔
      ∀ w, lookupA a v = some w → w ≠ [] → entryOK p a v w = true := by
  unfold keyOK
  cases hl : lookupA a v with
  | none => simp
  | some w =>
    simp only [Bool.or_eq_true]
    constructor
    · rintro (hemp | hok)
      · intro w2 hw2 hne
        obtain rfl : w = w2 := by simpa [hl] using hw2
        exact absurd (by simpa [List.isEmpty_iff] using hemp) hne
      · intro w2 hw2 _
        obtain rfl : w = w2 := by simpa [hl] using hw2
        exact hok
    · intro h
      by_cases hemp : w.isEmpty
      · exact Or.inl hemp
      · exact Or.inr (h w rfl (by simpa [List.isEmpty_iff] using hemp))

theorem entryOK_true_iff (p : Puzzle) (a : Assignment) (v : Slot) (w : Word) :
    entryOK p a v w = true ↔
      ((∀ n ∈ neighbors p v, ∀ nw, lookupA a n = some nw → nw ≠ [] →
        ∀ o1 o2, p.overlaps v n = some (o1, o2) →
          w.getD o1 ' ' = nw.getD o2 ' ') ∧ v.length = w.length) := by
  unfold entryOK
  rw [Bool.and_eq_true, List.all_eq_true]
  constructor
  · rintro ⟨h1, h2⟩
    refine ⟨?_, by simpa using h2⟩
    intro n hn nw hnw hne o1 o2 ho
    have h3 := h1 n hn
    rw [hnw] at h3
    simp only at h3
    rw [if_neg (by simpa [List.isEmpty_iff] using hne)] at h3
    rw [ho] at h3
    simpa using h3
  · rintro ⟨h1, h2⟩
    refine ⟨?_, by simpa using h2⟩
    intro n hn
    cases hnw : lookupA a n with
    | none => simp
    | some nw =>
      simp only
      by_cases hemp : nw.isEmpty
      · rw [if_pos hemp]
      · rw [if_neg hemp]
        cases ho : p.overlaps v n with
        | none => simp
        | some o =>
          obtain ⟨o1, o2⟩ := o
          simpa using h1 n hn nw hnw
            (by simpa [List.isEmpty_iff] using hemp) o1 o2 ho

theorem assignedWord_eq_none (a : Assignment) (e : Slot × List Word) :
    assignedWord a e = none ↔
      ∀ w, lookupA a e.1 = some w → w = [] := by
  cases hl : lookupA a e.1 with
  | none =>
    rw [assignedWord_none a e hl]
    simp
  | some w =>
    by_cases hemp : w.isEmpty
    · rw [assignedWord_empty a e w hl hemp]
      constructor
      · intro _ w2 hw2
        obtain rfl : w = w2 := by simpa using hw2
        simpa [List.isEmpty_iff] using hemp
      · intro _
        rfl
    · rw [assignedWord_some a e w hl hemp]
      constructor
      · intro h
        cases h
      · intro h
        exact absurd (h w rfl) (by simpa [List.isEmpty_iff] using hemp)

theorem nodup_assignedWords_iff (a : Assignment) :
    ∀ d : Domains, (d.map Prod.fst).Nodup →
      ((assignedWords a d).Nodup ↔
        ∀ v1 ∈ d.map Prod.fst, ∀ v2 ∈ d.map Prod.fst, v1 ≠ v2 →
          ∀ w1 w2, lookupA a v1 = some w1 → lookupA a v2 = some w2 →
            w1 ≠ [] → w2 ≠ [] → w1 ≠ w2) := by
  intro d
  induction d with
  | nil =>
    intro _
    unfold assignedWords
    simp
  | cons e rest ih =>
    intro hnd
    simp only [List.map_cons, List.nodup_cons] at hnd
    obtain ⟨hnotin, hndrest⟩ := hnd
    cases haw : assignedWord a e with
    | none =>
      have hwords : assignedWords a (e :: rest) = assignedWords a rest := by
        unfold assignedWords
        rw [List.filterMap_cons, haw]
      rw [hwords, ih hndrest]
      constructor
      · intro h v1 hv1 v2 hv2 hne12 w1 w2 hw1 hw2 hne1 hne2
        rw [List.map_cons] at hv1 hv2
        rcases List.mem_cons.mp hv1 with rfl | hv1r
        · exact absurd ((assignedWord_eq_none a e).mp haw w1 hw1) hne1
        · rcases List.mem_cons.mp hv2 with rfl | hv2r
          · exact absurd ((assignedWord_eq_none a e).mp haw w2 hw2) hne2
          · exact h v1 hv1r v2 hv2r hne12 w1 w2 hw1 hw2 hne1 hne2
      · intro h v1 hv1 v2 hv2 hne12 w1 w2 hw1 hw2 hne1 hne2
        rw [List.map_cons] at h
        exact h v1 (List.mem_cons_of_mem _ hv1) v2 (List.mem_cons_of_mem _ hv2)
          hne12 w1 w2 hw1 hw2 hne1 hne2
    | some w =>
      obtain ⟨hle, hwne⟩ := (assignedWord_eq_some a e w).mp haw
      have hwords : assignedWords a (e :: rest) = w :: assignedWords a rest := by
        unfold assignedWords
        rw [List.filterMap_cons, haw]
      rw [hwords, List.nodup_cons, ih hndrest]
      constructor
      · rintro ⟨hwnot, h⟩ v1 hv1 v2 hv2 hne12 w1 w2 hw1 hw2 hne1 hne2
        rw [List.map_cons] at hv1 hv2
        rcases List.mem_cons.mp hv1 with rfl | hv1r
        · obtain rfl : w = w1 := by rw [hle] at hw1; simpa using hw1
          intro heq
          apply hwnot
          rw [heq]
          have hv2r : v2 ∈ rest.map Prod.fst := by
            rcases List.mem_cons.mp hv2 with rfl | h2
            · exact absurd rfl hne12
            · exact h2
          exact (mem_assignedWords a rest w2).mpr ⟨v2, hv2r, hw2, hne2⟩
        · rcases List.mem_cons.mp hv2 with rfl | hv2r
          · obtain rfl : w = w2 := by rw [hle] at hw2; simpa using hw2
            intro heq
            apply hwnot
            rw [← heq]
            exact (mem_assignedWords a rest w1).mpr ⟨v1, hv1r, hw1, hne1⟩
          · exact h v1 hv1r v2 hv2r hne12 w1 w2 hw1 hw2 hne1 hne2
      · intro h
        constructor
        · intro hwmem
          obtain ⟨v2, hv2, hl2, hne2⟩ := (mem_assignedWords a rest w).mp hwmem
          have hne12 : e.1 ≠ v2 := fun heq => hnotin (heq ▸ hv2)
          refine h e.1 ?_ v2 ?_ hne12 w w hle hl2 hwne hne2 rfl
          · rw [List.map_cons]
            exact List.mem_cons_self _ _
          · rw [List.map_cons]
            exact List.mem_cons_of_mem _ hv2
        · intro v1 hv1 v2 hv2 hne12 w1 w2 hw1 hw2 hne1 hne2
          refine h v1 ?_ v2 ?_ hne12 w1 w2 hw1 hw2 hne1 hne2
          · rw [List.map_cons]
            exact List.mem_cons_of_mem _ hv1
          · rw [List.map_cons]
            exact List.mem_cons_of_mem _ hv2

theorem consistent_iff_spec (p : Puzzle) (d : Domains) (a : Assignment)
    (hwf : WFP p) (hkeys : d.map Prod.fst = p.vars)
    (hne : ∀ v ∈ p.vars, ∀ w, lookupA a v = some w → w ≠ []) :
    consistent p d a = true ↔
      PairwiseDistinctWords p a ∧ OverlapsAgree p a ∧ LengthsMatch p a := by
  rw [consistent_eq, Bool.and_eq_true, entriesOK_eq_keys, hkeys,
    List.all_eq_true]
  have hnd : (d.map Prod.fst).Nodup := by rw [hkeys]; exact hwf.1
  have hBiff := nodup_assignedWords_iff a d hnd
  rw [hkeys] at hBiff
  constructor
  · rintro ⟨hA, hB⟩
    have hBnd : (assignedWords a d).Nodup := by simpa using hB
    refine ⟨?_, ?_, ?_⟩
    · intro v1 hv1 v2 hv2 hne12 w1 w2 hw1 hw2
      exact (hBiff.mp hBnd) v1 hv1 v2 hv2 hne12 w1 w2 hw1 hw2
        (hne v1 hv1 w1 hw1) (hne v2 hv2 w2 hw2)
    · intro v1 hv1 v2 hv2 o1 o2 ho w1 w2 hw1 hw2
      have h1 := (keyOK_true_iff p a v1).mp (hA v1 hv1) w1 hw1
        (hne v1 hv1 w1 hw1)
      have h2 := ((entryOK_true_iff p a v1 w1).mp h1).1
      have hv2n : v2 ∈ neighbors p v1 := by
        rw [mem_neighbors_iff]
        refine ⟨hv2, ?_, ?_⟩
        · exact Ne.symm (WFP_overlap_ne p hwf v1 v2 (o1, o2) hv1 ho)
        · rw [(WFP_overlap p hwf v1 v2 o1 o2 hv1 hv2 ho).1]
          rfl
      exact h2 v2 hv2n w2 hw2 (hne v2 hv2 w2 hw2) o1 o2 ho
    · intro v hv w hw
      have h1 := (keyOK_true_iff p a v).mp (hA v hv) w hw (hne v hv w hw)
      exact ((entryOK_true_iff p a v w).mp h1).2.symm
  · rintro ⟨hdist, hagree, hlen⟩
    constructor
    · intro v hv
      rw [keyOK_true_iff]
      intro w hw hwne
      rw [entryOK_true_iff]
      constructor
      · intro n hn nw hnw hnwne o1 o2 ho
        have hnv : n ∈ p.vars := ((mem_neighbors_iff p v n).mp hn).1
        exact hagree v hv n hnv o1 o2 ho w nw hw hnw
      · exact (hlen v hv w hw).symm
    · simp only [decide_eq_true_eq]
      apply hBiff.mpr
      intro v1 hv1 v2 hv2 hne12 w1 w2 hw1 hw2 _ _
      exact hdist v1 hv1 v2 hv2 hne12 w1 w2 hw1 hw2

/-! ### `ac3` soundness and fixed point -/

/-- A candidate full solution (a total word choice) is still available in
every Variable's domain. -/
def SolCompat (p : Puzzle) (A : Slot → Word) (d : Domains) : Prop :=
  ∀ v ∈ p.vars, A v ∈ lookupD d v

/-- The candidate agrees with itself across every overlap. -/
def SolAgrees (p : Puzzle) (A : Slot → Word) : Prop :=
  ∀ x ∈ p.vars, ∀ y ∈ p.vars, ∀ o1 o2, p.overlaps x y = some (o1, o2) →
    (A x).getD o1 ' ' = (A y).getD o2 ' '

theorem revise_compat (p : Puzzle) (A : Slot → Word) (d : Domains)
    (x y : Slot) (hag : SolAgrees p A) (hc : SolCompat p A d)
    (hx : x ∈ p.vars) (hy : y ∈ p.vars) :
    SolCompat p A (revise p d x y).2 := by
  intro v hv
  by_cases hvx : v = x
  · subst hvx
    apply revise_keeps_supported p d v y (A v) (hc v hv)
    intro o1 o2 ho
    exact ⟨A y, hc y hy, (hag v hv y hy o1 o2 ho).symm⟩
  · rw [revise_lookup_ne p d x y v hvx]
    exact hc v hv

theorem ac3Loop_compat (p : Puzzle) (A : Slot → Word) (hag : SolAgrees p A) :
    ∀ (d : Domains) (q : List (Slot × Slot)),
      (∀ arc ∈ q, arc.1 ∈ p.vars ∧ arc.2 ∈ p.vars) →
      SolCompat p A d →
      (ac3Loop p d q).1 = true ∧ SolCompat p A (ac3Loop p d q).2 := by
  intro d q
  induction d, q using ac3Loop.induct p with
  | case1 d =>
    intro _ hc
    rw [ac3Loop_nil]
    exact ⟨rfl, hc⟩
  | case2 d x y rest d1 hrev hempty =>
    intro harc hc
    exfalso
    have hx : x ∈ p.vars := (harc (x, y) (List.mem_cons_self _ _)).1
    have hy : y ∈ p.vars := (harc (x, y) (List.mem_cons_self _ _)).2
    have hc1 : SolCompat p A d1 := by
      have h2 := revise_compat p A d x y hag hc hx hy
      rw [hrev] at h2
      exact h2
    have hmem := hc1 x hx
    have hnil : lookupD d1 x = [] := by
      have h3 : (lookupD d1 x).length = 0 := by simpa using hempty
      exact List.length_eq_zero.mp h3
    rw [hnil] at hmem
    simp at hmem
  | case3 d x y rest d1 hrev hempty ih =>
    intro harc hc
    have hx : x ∈ p.vars := (harc (x, y) (List.mem_cons_self _ _)).1
    have hy : y ∈ p.vars := (harc (x, y) (List.mem_cons_self _ _)).2
    have hc1 : SolCompat p A d1 := by
      have h2 := revise_compat p A d x y hag hc hx hy
      rw [hrev] at h2
      exact h2
    have harc2 : ∀ arc ∈ rest ++ requeueArcs p x,
        arc.1 ∈ p.vars ∧ arc.2 ∈ p.vars := by
      intro arc hm
      rcases List.mem_append.mp hm with h3 | h3
      · exact harc arc (List.mem_cons_of_mem _ h3)
      · unfold requeueArcs at h3
        obtain ⟨z, hz, rfl⟩ := List.mem_map.mp h3
        exact ⟨((mem_neighbors_iff p x z).mp hz).1, hx⟩
    rw [ac3Loop_cons_true p d x y rest d1 hrev, if_neg (by simpa using hempty)]
    exact ih harc2 hc1
  | case4 d x y rest d1 hrev ih =>
    intro harc hc
    rw [ac3Loop_cons_false p d x y rest d1 hrev]
    exact ih (fun arc hm => harc arc (List.mem_cons_of_mem _ hm)) hc

/-- Local arc consistency of `x` with respect to `y`: every remaining word
of `x` has an agreeing word in `y`'s domain. -/
def ArcConsB (p : Puzzle) (d : Domains) (x y : Slot) : Prop :=
  ∀ o1 o2, p.overlaps x y = some (o1, o2) →
    ∀ w ∈ lookupD d x, ∃ v ∈ lookupD d y, v.getD o2 ' ' = w.getD o1 ' '

theorem ac3Loop_fixpoint (p : Puzzle) (hwf : WFP p) :
    ∀ (d : Domains) (q : List (Slot × Slot)),
      (∀ x ∈ p.vars, ∀ y ∈ p.vars, ∀ o : Nat × Nat, p.overlaps x y = some o →
        ((x, y) ∈ q ∨ ArcConsB p d x y)) →
      ∀ d2, ac3Loop p d q = (true, d2) →
      ∀ x ∈ p.vars, ∀ y ∈ p.vars, ArcConsB p d2 x y := by
  intro d q
  induction d, q using ac3Loop.induct p with
  | case1 d =>
    intro hinv d2 heq x hx y hy
    rw [ac3Loop_nil] at heq
    have hd : d = d2 := by
      have := (Prod.mk.injEq _ _ _ _ ▸ heq).2
      exact this
    subst hd
    intro o1 o2 ho w hw
    rcases hinv x hx y hy (o1, o2) ho with h | h
    · simp at h
    · exact h o1 o2 ho w hw
  | case2 d x0 y0 rest d1 hrev hempty =>
    intro hinv d2 heq
    rw [ac3Loop_cons_true p d x0 y0 rest d1 hrev, if_pos hempty] at heq
    simp at heq
  | case3 d x0 y0 rest d1 hrev hempty ih =>
    intro hinv d2 heq
    rw [ac3Loop_cons_true p d x0 y0 rest d1 hrev,
      if_neg (by simpa using hempty)] at heq
    refine ih ?_ d2 heq
    intro a ha b hb o ho
    have hrevs := revise_lookup_sub p d x0 y0
    have hrevne := revise_lookup_ne p d x0 y0
    rcases hinv a ha b hb o ho with hm | hcons
    · rcases List.mem_cons.mp hm with heq2 | hmr
      · -- the popped arc itself: revise has made it consistent
        obtain ⟨ha0, hb0⟩ : a = x0 ∧ b = y0 := by
          constructor <;> simp [Prod.ext_iff] at heq2 <;> tauto
        subst ha0
        subst hb0
        right
        intro o1 o2 ho12 w hw
        obtain ⟨o1', o2', ho', hl⟩ := revise_true_lookup p d a b d1 hrev
        rw [ho'] at ho12
        obtain ⟨rfl, rfl⟩ : o1' = o1 ∧ o2' = o2 := by
          simpa using ho12
        rw [hl] at hw
        have hane : b ≠ a :=
          Ne.symm (WFP_overlap_ne p hwf a b _ ha ho')
        have hlb : lookupD d1 b = lookupD d b := by
          have := hrevne b hane
          rw [hrev] at this
          exact this
        rw [hlb]
        have hfilt := (List.mem_filter.mp hw).2
        simp only [List.any_eq_true] at hfilt
        obtain ⟨yw, hyw, hbeq⟩ := hfilt
        exact ⟨yw, hyw, by simpa using hbeq⟩
      · exact Or.inl (List.mem_append.mpr (Or.inl hmr))
    · by_cases hbx : b = x0
      · subst hbx
        left
        apply List.mem_append.mpr
        right
        unfold requeueArcs
        apply List.mem_map.mpr
        refine ⟨a, ?_, rfl⟩
        rw [mem_neighbors_iff]
        exact ⟨ha, WFP_overlap_ne p hwf a b o ha ho, by rw [ho]; rfl⟩
      · right
        intro o1 o2 ho12 w hw
        have hsubw : w ∈ lookupD d a := by
          have := hrevs a w
          rw [hrev] at this
          exact this hw
        obtain ⟨v, hv, hagree⟩ := hcons o1 o2 ho12 w hsubw
        have hlb : lookupD d1 b = lookupD d b := by
          have := hrevne b hbx
          rw [hrev] at this
          exact this
        rw [hlb]
        exact ⟨v, hv, hagree⟩
  | case4 d x0 y0 rest d1 hrev ih =>
    intro hinv d2 heq
    rw [ac3Loop_cons_false p d x0 y0 rest d1 hrev] at heq
    refine ih ?_ d2 heq
    intro a ha b hb o ho
    rcases hinv a ha b hb o ho with hm | hcons
    · rcases List.mem_cons.mp hm with heq2 | hmr
      · obtain ⟨ha0, hb0⟩ : a = x0 ∧ b = y0 := by
          constructor <;> simp [Prod.ext_iff] at heq2 <;> tauto
        subst ha0
        subst hb0
        right
        intro o1 o2 ho12 w hw
        have hsup := revise_false_supported p d a b o1 o2 ho12
          (by rw [hrev]) w hw
        simp only [List.any_eq_true] at hsup
        obtain ⟨yw, hyw, hbeq⟩ := hsup
        exact ⟨yw, hyw, by simpa using hbeq⟩
      · exact Or.inl hmr
    · exact Or.inr hcons

/-! ### Emptiness bookkeeping for `ac3` -/

theorem ac3Loop_false_empty (p : Puzzle) :
    ∀ (d : Domains) (q : List (Slot × Slot)), (∀ arc ∈ q, arc.1 ∈ p.vars) →
      ∀ d2, ac3Loop p d q = (false, d2) → ∃ x ∈ p.vars, lookupD d2 x = [] := by
  intro d q
  induction d, q using ac3Loop.induct p with
  | case1 d =>
    intro _ d2 heq
    rw [ac3Loop_nil] at heq
    simp at heq
  | case2 d x y rest d1 hrev hempty =>
    intro harc d2 heq
    rw [ac3Loop_cons_true p d x y rest d1 hrev, if_pos hempty] at heq
    obtain ⟨_, hd⟩ := Prod.mk.injEq _ _ _ _ ▸ heq
    refine ⟨x, harc (x, y) (List.mem_cons_self _ _), ?_⟩
    rw [← hd]
    exact List.length_eq_zero.mp (by simpa using hempty)
  | case3 d x y rest d1 hrev hempty ih =>
    intro harc d2 heq
    rw [ac3Loop_cons_true p d x y rest d1 hrev,
      if_neg (by simpa using hempty)] at heq
    refine ih ?_ d2 heq
    intro arc hm
    rcases List.mem_append.mp hm with h3 | h3
    · exact harc arc (List.mem_cons_of_mem _ h3)
    · unfold requeueArcs at h3
      obtain ⟨z, hz, rfl⟩ := List.mem_map.mp h3
      exact ((mem_neighbors_iff p x z).mp hz).1
  | case4 d x y rest d1 hrev ih =>
    intro harc d2 heq
    rw [ac3Loop_cons_false p d x y rest d1 hrev] at heq
    exact ih (fun arc hm => harc arc (List.mem_cons_of_mem _ hm)) d2 heq

theorem ac3Loop_true_nonempty (p : Puzzle) :
    ∀ (d : Domains) (q : List (Slot × Slot)),
      (∀ v ∈ p.vars, lookupD d v ≠ []) →
      ∀ d2, ac3Loop p d q = (true, d2) → ∀ v ∈ p.vars, lookupD d2 v ≠ [] := by
  intro d q
  induction d, q using ac3Loop.induct p with
  | case1 d =>
    intro hne d2 heq
    rw [ac3Loop_nil] at heq
    obtain ⟨_, hd⟩ := Prod.mk.injEq _ _ _ _ ▸ heq
    rw [← hd]
    exact hne
  | case2 d x y rest d1 hrev hempty =>
    intro hne d2 heq
    rw [ac3Loop_cons_true p d x y rest d1 hrev, if_pos hempty] at heq
    simp at heq
  | case3 d x y rest d1 hrev hempty ih =>
    intro hne d2 heq
    rw [ac3Loop_cons_true p d x y rest d1 hrev,
      if_neg (by simpa using hempty)] at heq
    refine ih ?_ d2 heq
    intro v hv
    by_cases hvx : v = x
    · subst hvx
      intro hnil
      rw [hnil] at hempty
      simp at hempty
    · have h3 := revise_lookup_ne p d x y v hvx
      rw [hrev] at h3
      rw [h3]
      exact hne v hv
  | case4 d x y rest d1 hrev ih =>
    intro hne d2 heq
    rw [ac3Loop_cons_false p d x y rest d1 hrev] at heq
    exact ih hne d2 heq

/-! ### `solve`-level bookkeeping -/

theorem keys_enforce (d : Domains) :
    (enforce_node_consistency d).map Prod.fst = d.map Prod.fst := by
  unfold enforce_node_consistency
  rw [List.map_map]
  rfl

theorem lookupD_enforce (d : Domains) (v : Slot) :
    lookupD (enforce_node_consistency d) v =
      (lookupD d v).filter (fun w => w.length == v.length) := by
  induction d with
  | nil => rfl
  | cons e rest ih =>
    unfold enforce_node_consistency
    rw [List.map_cons, lookupD_cons, lookupD_cons]
    by_cases he : e.1 == v
    · have h1 : e.1 = v := by simpa using he
      simp only
      rw [if_pos he, if_pos he, h1]
    · simp only
      rw [if_neg he, if_neg he]
      exact ih

theorem lookupD_map_words (words : List Word) :
    ∀ (l : List Slot) (v : Slot), v ∈ l →
      lookupD (l.map (fun u => (u, words))) v = words := by
  intro l
  induction l with
  | nil =>
    intro v hv
    simp at hv
  | cons u rest ih =>
    intro v hv
    rw [List.map_cons, lookupD_cons]
    by_cases he : u == v
    · rw [if_pos he]
    · rw [if_neg he]
      apply ih
      rcases List.mem_cons.mp hv with rfl | h2
      · exact absurd (by simp : (v == v) = true) (by simpa using he)
      · exact h2

theorem lookupD_map_words_sub (words : List Word) :
    ∀ (l : List Slot) (v : Slot) (w : Word),
      w ∈ lookupD (l.map (fun u => (u, words))) v → w ∈ words := by
  intro l
  induction l with
  | nil =>
    intro v w hw
    simp [lookupD_nil] at hw
  | cons u rest ih =>
    intro v w hw
    rw [List.map_cons, lookupD_cons] at hw
    by_cases he : u == v
    · rw [if_pos he] at hw
      exact hw
    · rw [if_neg he] at hw
      exact ih v w hw

theorem keys_initialDomains (p : Puzzle) :
    (initialDomains p).map Prod.fst = p.vars := by
  unfold initialDomains
  rw [List.map_map]
  exact List.map_id p.vars

/-- The Domain Store after `solve`'s node-consistency and global
arc-consistency pre-passes, before backtracking begins. -/
def domainsPostAC3 (p : Puzzle) : Domains :=
  (ac3Default p (enforce_node_consistency (initialDomains p))).2

theorem solve_eq (p : Puzzle) :
    solve p =
      backtrackF p ((domainsPostAC3 p).length + 1) (domainsPostAC3 p) [] := by
  unfold solve domainsPostAC3 ac3Default ac3
  rfl

theorem keys_domainsPostAC3 (p : Puzzle) :
    (domainsPostAC3 p).map Prod.fst = p.vars := by
  unfold domainsPostAC3 ac3Default
  rw [ac3_keys, keys_enforce, keys_initialDomains]

theorem LenOK_domainsPostAC3 (p : Puzzle) : LenOK (domainsPostAC3 p) := by
  unfold domainsPostAC3 ac3Default ac3
  exact LenOK_ac3Loop p _ _ (LenOK_enforce _)

theorem lookupD_domainsPostAC3_sub (p : Puzzle) (v : Slot) (w : Word)
    (hw : w ∈ lookupD (domainsPostAC3 p) v) : w ∈ p.words := by
  unfold domainsPostAC3 ac3Default ac3 at hw
  have h1 := ac3Loop_sub p _ _ v w hw
  rw [lookupD_enforce] at h1
  have h2 := (List.mem_filter.mp h1).1
  exact lookupD_map_words_sub p.words p.vars v w (by
    unfold initialDomains at h2
    exact h2)

/-! ### Solutions and feasibility -/

/-- A feasible solution of the Puzzle Model: a complete assignment drawn
from the vocabulary with matching word lengths, accepted by the solver's
own `consistent`. -/
def IsSolution (p : Puzzle) (a : Assignment) : Prop :=
  assignment_complete (initialDomains p) a = true ∧
  consistent p (initialDomains p) a = true ∧
  ∀ v ∈ p.vars, ∀ w, lookupA a v = some w → w ∈ p.words ∧ w.length = v.length

/-- The Puzzle Model has a feasible solution. -/
def Feasible (p : Puzzle) : Prop := ∃ a, IsSolution p a

/-! ### Completeness of the search -/

theorem lookupA_nil (x : Slot) : lookupA [] x = none := rfl

theorem lookupA_cons (var : Slot) (w : Word) (a : Assignment) (x : Slot) :
    lookupA ((var, w) :: a) x =
      if var == x then some w else lookupA a x := by
  unfold lookupA
  rw [List.find?_cons]
  cases h : (var == x) with
  | true => simp [h]
  | false => simp [h]

theorem lookupA_some_mem (a : Assignment) (v : Slot) (w : Word)
    (h : lookupA a v = some w) : (v, w) ∈ a := by
  unfold lookupA at h
  cases hf : a.find? (fun e => e.1 == v) with
  | none => rw [hf] at h; simp at h
  | some e =>
    rw [hf] at h
    have hmem := List.mem_of_find?_eq_some hf
    have hkey : e.1 = v := by simpa using List.find?_some hf
    have hval : e.2 = w := by simpa using h
    have : e = (v, w) := by
      rw [← hkey, ← hval]
    rwa [this] at hmem

theorem assignedB_cons (var : Slot) (w : Word) (a : Assignment) (v : Slot) :
    assignedB ((var, w) :: a) v = ((var == v) || assignedB a v) := by
  unfold assignedB
  rw [List.find?_cons]
  cases h : (var == v) with
  | true => simp [h]
  | false => simp [h]

theorem assignedB_nil (v : Slot) : assignedB [] v = false := rfl

theorem assignedB_iff_lookupA (a : Assignment) (v : Slot) :
    assignedB a v = true ↔ ∃ w, lookupA a v = some w := by
  unfold assignedB lookupA
  cases hf : a.find? (fun e => e.1 == v) <;> simp [hf]

/-- The number of Variables not yet assigned; the quantity that shrinks at
every recursive `backtrack` call. -/
def unassignedCount (p : Puzzle) (a : Assignment) : Nat :=
  p.vars.countP (fun v => !(assignedB a v))

theorem unassignedCount_cons (p : Puzzle) (hnd : p.vars.Nodup)
    (a : Assignment) (var : Slot) (w : Word) (hvar : var ∈ p.vars)
    (hun : assignedB a var = false) :
    unassignedCount p ((var, w) :: a) + 1 = unassignedCount p a := by
  unfold unassignedCount
  have key : ∀ l : List Slot, l.Nodup → var ∈ l →
      (l.countP (fun v => !(assignedB ((var, w) :: a) v))) + 1 =
        l.countP (fun v => !(assignedB a v)) := by
    intro l
    induction l with
    | nil => intro _ h; simp at h
    | cons u rest ih =>
      intro hnd2 hmem
      obtain ⟨hnotin, hndrest⟩ := List.nodup_cons.mp hnd2
      rw [List.countP_cons, List.countP_cons]
      by_cases hu : u = var
      · subst hu
        have h1 : (!(assignedB ((u, w) :: a) u)) = false := by
          rw [assignedB_cons]
          simp
        have h2 : (!(assignedB a u)) = true := by rw [hun]; rfl
        rw [h1, h2]
        have h3 : rest.countP (fun v => !(assignedB ((u, w) :: a) v)) =
            rest.countP (fun v => !(assignedB a v)) := by
          apply List.countP_congr
          intro v hv
          have hvu : ¬(u == v) = true := by
            simp only [beq_iff_eq]
            intro heq
            exact hnotin (heq ▸ hv)
          rw [assignedB_cons]
          simp only [Bool.or_eq_true, not_or] at hvu ⊢
          cases h4 : (u == v) with
          | true => exact absurd h4 hvu
          | false => simp
        rw [h3]
        simp
      · have hvarrest : var ∈ rest := by
          rcases List.mem_cons.mp hmem with h4 | h4
          · exact absurd h4.symm hu
          · exact h4
        have h1 : (!(assignedB ((var, w) :: a) u)) = (!(assignedB a u)) := by
          rw [assignedB_cons]
          have : (var == u) = false := by
            simp only [beq_eq_false_iff_ne, ne_eq]
            exact fun heq => hu heq.symm
          rw [this]
          simp
        rw [h1]
        have := ih hndrest hvarrest
        omega
  exact key p.vars hnd hvar

theorem unassignedCount_pos (p : Puzzle) (a : Assignment) (var : Slot)
    (hvar : var ∈ p.vars) (hun : assignedB a var = false) :
    0 < unassignedCount p a := by
  unfold unassignedCount
  rw [List.countP_pos]
  exact ⟨var, hvar, by rw [hun]; rfl⟩

theorem unassignedCount_le (p : Puzzle) (a : Assignment) :
    unassignedCount p a ≤ p.vars.length :=
  List.countP_le_length _

theorem overlapKeys_mem (p : Puzzle) (arc : Slot × Slot)
    (h : arc ∈ overlapKeys p) : arc.1 ∈ p.vars ∧ arc.2 ∈ p.vars := by
  unfold overlapKeys at h
  rw [List.mem_bind] at h
  obtain ⟨x, hx, hmem⟩ := h
  obtain ⟨y, hy, rfl⟩ := List.mem_map.mp hmem
  exact ⟨hx, (List.mem_filter.mp hy).1⟩

theorem get_neighbors_overlap_queue_mem (p : Puzzle) (var : Slot)
    (arc : Slot × Slot) (h : arc ∈ get_neighbors_overlap_queue p var) :
    arc.1 ∈ p.vars ∧ arc.2 ∈ p.vars := by
  unfold get_neighbors_overlap_queue at h
  exact overlapKeys_mem p arc (List.mem_filter.mp h).1

theorem compat_domainsAfterStep (p : Puzzle) (A : Slot → Word)
    (hag : SolAgrees p A) (d : Domains) (var : Slot) (hvar : var ∈ p.vars)
    (hc : SolCompat p A d) (hfound : A var ∈ lookupD d var) :
    SolCompat p A (domainsAfterStep p d var (A var)) := by
  have hc1 : SolCompat p A (updateD d var [A var]) := by
    intro v hv
    by_cases hvv : v = var
    · subst hvv
      rw [lookupD_updateD_self d v [A v] (lookupD_ne_nil_found d v
        (by intro hnil; rw [hnil] at hfound; simp at hfound))]
      simp
    · rw [lookupD_updateD_ne d var [A var] v hvv]
      exact hc v hv
  have harcs : ∀ arc ∈ get_neighbors_overlap_queue p var,
      arc.1 ∈ p.vars ∧ arc.2 ∈ p.vars :=
    fun arc hm => get_neighbors_overlap_queue_mem p var arc hm
  have h2 := ac3Loop_compat p A hag (updateD d var [A var])
    (get_neighbors_overlap_queue p var) harcs hc1
  unfold domainsAfterStep
  split
  · exact h2.2
  · exact hc

theorem keys_eq_length (d : Domains) (l : List Slot)
    (h : d.map Prod.fst = l) : d.length = l.length := by
  rw [← h, List.length_map]

theorem backtrackF_complete (p : Puzzle) (hwf : WFP p) (A : Slot → Word)
    (hlen : ∀ v ∈ p.vars, (A v).length = v.length)
    (hag : SolAgrees p A)
    (hdist : ∀ v1 ∈ p.vars, ∀ v2 ∈ p.vars, v1 ≠ v2 → A v1 ≠ A v2) :
    ∀ fuel d a,
      d.map Prod.fst = p.vars →
      SolCompat p A d →
      (∀ v ∈ p.vars, ∀ w, lookupA a v = some w → w = A v) →
      unassignedCount p a < fuel →
      (backtrackF p fuel d a).1.isSome := by
  have hApos : ∀ v ∈ p.vars, A v ≠ [] := by
    intro v hv hnil
    have h1 := hlen v hv
    rw [hnil] at h1
    have h2 := hwf.2.2.2 v hv
    simp at h1
    omega
  have consistent_step : ∀ (d : Domains) (a : Assignment) (var : Slot),
      d.map Prod.fst = p.vars → var ∈ p.vars →
      (∀ v ∈ p.vars, ∀ w, lookupA a v = some w → w = A v) →
      consistent p d ((var, A var) :: a) = true := by
    intro d a var hkeys hvar hsubA
    have hsubA1 : ∀ v ∈ p.vars, ∀ w,
        lookupA ((var, A var) :: a) v = some w → w = A v := by
      intro v hv w hw
      rw [lookupA_cons] at hw
      by_cases hvv : var == v
      · rw [if_pos hvv] at hw
        have : var = v := by simpa using hvv
        rw [← this]
        simpa using hw.symm
      · rw [if_neg hvv] at hw
        exact hsubA v hv w hw
    rw [consistent_iff_spec p d _ hwf hkeys (by
      intro v hv w hw
      rw [hsubA1 v hv w hw]
      exact hApos v hv)]
    refine ⟨?_, ?_, ?_⟩
    · intro v1 hv1 v2 hv2 hne12 w1 w2 hw1 hw2
      rw [hsubA1 v1 hv1 w1 hw1, hsubA1 v2 hv2 w2 hw2]
      exact hdist v1 hv1 v2 hv2 hne12
    · intro v1 hv1 v2 hv2 o1 o2 ho w1 w2 hw1 hw2
      rw [hsubA1 v1 hv1 w1 hw1, hsubA1 v2 hv2 w2 hw2]
      exact hag v1 hv1 v2 hv2 o1 o2 ho
    · intro v hv w hw
      rw [hsubA1 v hv w hw]
      exact hlen v hv
  have H := backtrackF.induct p
    (fun fuel d a =>
      d.map Prod.fst = p.vars →
      SolCompat p A d →
      (∀ v ∈ p.vars, ∀ w, lookupA a v = some w → w = A v) →
      unassignedCount p a < fuel →
      (backtrackF p fuel d a).1.isSome)
    (fun fuel d a var values =>
      d.map Prod.fst = p.vars →
      SolCompat p A d →
      (∀ v ∈ p.vars, ∀ w, lookupA a v = some w → w = A v) →
      var ∈ p.vars →
      assignedB a var = false →
      A var ∈ values →
      (∀ w ∈ values, w ∈ lookupD d var) →
      unassignedCount p a ≤ fuel →
      (tryValues p fuel d a var values).1.isSome)
  apply H
  · intro d a _ _ _ hfuel
    omega
  · intro d a f hcomp _ _ _ _
    rw [backtrackF_succ, if_pos hcomp]
    rfl
  · intro d a f hcomp hsel hkeys _ _ _
    exfalso
    obtain ⟨var, hvar, _⟩ := select_spec p d a (by
      cases hc2 : assignment_complete d a with
      | false => rfl
      | true => exact absurd hc2 hcomp)
    rw [hsel] at hvar
    simp at hvar
  · intro d a f hcomp var hsel ih hkeys hc hsubA hfuel
    rw [backtrackF_succ, if_neg hcomp, hsel]
    obtain ⟨var2, hvar2, hmem2, hun2⟩ := select_spec p d a (by
      cases hc2 : assignment_complete d a with
      | false => rfl
      | true => exact absurd hc2 hcomp)
    rw [hsel] at hvar2
    have heq : var = var2 := by simpa using hvar2
    subst heq
    rw [hkeys] at hmem2
    apply ih hkeys hc hsubA hmem2 hun2
    · rw [order_domain_values_mem]
      exact hc var hmem2
    · intro w hw
      rw [← order_domain_values_mem p d var a w]
      exact hw
    · omega
  · intro fuel d a var _ _ _ _ _ hAmem _ _
    simp at hAmem
  · intro fuel d a var v rest hcons res0 d30 hbt hres ih1 ih2
      hkeys hc hsubA hvar hun hAmem hvals hfuel
    exfalso
    obtain ⟨_, _, hsuf, _⟩ := backtrackF_sound p fuel _ _ res0 d30 hbt
    have hres0 : res0 ≠ [] := by
      intro hnil
      rw [hnil] at hsuf
      have := List.IsSuffix.length_le hsuf
      simp at this
    rw [List.isEmpty_iff] at hres
    exact hres0 hres
  · intro fuel d a var v rest hcons res0 d30 hbt hres ih1
      hkeys hc hsubA hvar hun hAmem hvals hfuel
    rw [tryValues_cons, if_pos hcons]
    rw [dite_eq_ite] at hbt
    rw [hbt]
    simp only [if_neg hres]
    rfl
  · intro fuel d a var v rest hcons d4 hbt ih1 ih2
      hkeys hc hsubA hvar hun hAmem hvals hfuel
    by_cases hvA : v = A var
    · exfalso
      subst hvA
      have hc2 : SolCompat p A (domainsAfterStep p d var (A var)) :=
        compat_domainsAfterStep p A hag d var hvar hc
          (hvals (A var) (List.mem_cons_self _ _))
      have hkeys2 : (domainsAfterStep p d var (A var)).map Prod.fst = p.vars := by
        rw [keys_domainsAfterStep, hkeys]
      have hsubA2 : ∀ v2 ∈ p.vars, ∀ w,
          lookupA ((var, A var) :: a) v2 = some w → w = A v2 := by
        intro v2 hv2 w hw
        rw [lookupA_cons] at hw
        by_cases hvv : var == v2
        · rw [if_pos hvv] at hw
          have h5 : var = v2 := by simpa using hvv
          rw [← h5]
          simpa using hw.symm
        · rw [if_neg hvv] at hw
          exact hsubA v2 hv2 w hw
      have hfuel2 : unassignedCount p ((var, A var) :: a) < fuel := by
        have h6 := unassignedCount_cons p hwf.1 a var (A var) hvar hun
        have h7 := unassignedCount_pos p a var hvar hun
        omega
      have hsome := ih1 hkeys2 hc2 hsubA2 hfuel2
      have hbt2 : backtrackF p fuel (domainsAfterStep p d var (A var))
          ((var, A var) :: a) = (none, d4) := hbt
      have hsome2 : (backtrackF p fuel (domainsAfterStep p d var (A var))
          ((var, A var) :: a)).1.isSome = true := hsome
      rw [hbt2] at hsome2
      simp at hsome2
    · rw [tryValues_cons, if_pos hcons]
      rw [dite_eq_ite] at hbt
      rw [hbt]
      apply ih2 hkeys hc hsubA hvar hun
      · rcases List.mem_cons.mp hAmem with h5 | h5
        · exact absurd h5.symm hvA
        · exact h5
      · intro w hw
        exact hvals w (List.mem_cons_of_mem _ hw)
      · exact hfuel
  · intro fuel d a var v rest hcons ih
      hkeys hc hsubA hvar hun hAmem hvals hfuel
    by_cases hvA : v = A var
    · exfalso
      subst hvA
      exact absurd (consistent_step d a var hkeys hvar hsubA) hcons
    · rw [tryValues_cons, if_neg hcons]
      apply ih hkeys hc hsubA hvar hun
      · rcases List.mem_cons.mp hAmem with h5 | h5
        · exact absurd h5.symm hvA
        · exact h5
      · intro w hw
        exact hvals w (List.mem_cons_of_mem _ hw)
      · exact hfuel

theorem consistentLoop_nil_assignment (p : Puzzle) :
    ∀ (d : Domains) (used : List Word) (count : Nat),
      consistentLoop p [] d used count = (used.length == count) := by
  intro d
  induction d with
  | nil => intro used count; rfl
  | cons e rest ih =>
    intro used count
    rw [consistentLoop_cons_none p [] e rest used count (lookupA_nil e.1)]
    exact ih used count

theorem consistent_nil_assignment (p : Puzzle) (d : Domains) :
    consistent p d [] = true := by
  unfold consistent
  rw [consistentLoop_nil_assignment]
  rfl

theorem solve_some_isSolution (p : Puzzle) (res : Assignment) (d3 : Domains)
    (h : solve p = (some res, d3)) : IsSolution p res := by
  rw [solve_eq] at h
  obtain ⟨s1, s2, s3, s4⟩ := backtrackF_sound p _ _ _ res d3 h
  have hkk : (domainsPostAC3 p).map Prod.fst =
      (initialDomains p).map Prod.fst := by
    rw [keys_domainsPostAC3, keys_initialDomains]
  refine ⟨?_, ?_, ?_⟩
  · rw [← assignment_complete_congr (domainsPostAC3 p) (initialDomains p)
      res hkk]
    exact s1
  · rcases s2 with rfl | hc
    · exact consistent_nil_assignment p _
    · rw [← consistent_congr p (domainsPostAC3 p) (initialDomains p) res hkk]
      exact hc
  · intro v hv w hw
    have hmem := lookupA_some_mem res v w hw
    rcases s4 (v, w) hmem with h5 | h5
    · simp at h5
    · exact ⟨lookupD_domainsPostAC3_sub p v w h5,
        LenOK_lookupD _ (LenOK_domainsPostAC3 p) v w h5⟩

theorem solve_infeasible (p : Puzzle) (h : ¬ Feasible p) :
    solve p = (none, domainsPostAC3 p) := by
  rcases hs : solve p with ⟨r, d3⟩
  cases r with
  | some res => exact absurd ⟨res, solve_some_isSolution p res d3 hs⟩ h
  | none =>
    rw [solve_eq] at hs
    have h1 : (backtrackF p ((domainsPostAC3 p).length + 1)
        (domainsPostAC3 p) []).1 = none := by
      rw [hs]
    have h2 := backtrackF_frame p ((domainsPostAC3 p).length + 1)
      (domainsPostAC3 p) [] h1
    rw [hs] at h2
    have h3 : d3 = domainsPostAC3 p := h2
    rw [h3]

theorem solve_feasible_isSome (p : Puzzle) (hwf : WFP p) (hfe : Feasible p) :
    (solve p).1.isSome := by
  obtain ⟨a0, hcomp0, hcons0, hwords0⟩ := hfe
  have hAv : ∀ v ∈ p.vars, lookupA a0 v = some ((lookupA a0 v).getD []) := by
    intro v hv
    have h1 : assignedB a0 v = true := by
      rw [assignment_complete_eq_keys, List.all_eq_true] at hcomp0
      apply hcomp0
      rw [keys_initialDomains]
      exact hv
    obtain ⟨w, hw⟩ := (assignedB_iff_lookupA a0 v).mp h1
    rw [hw]
    rfl
  have hlenpos := hwf.2.2.2
  have hlenA : ∀ v ∈ p.vars,
      ((lookupA a0 v).getD []).length = v.length := by
    intro v hv
    exact (hwords0 v hv _ (hAv v hv)).2
  have hAwords : ∀ v ∈ p.vars, (lookupA a0 v).getD [] ∈ p.words :=
    fun v hv => (hwords0 v hv _ (hAv v hv)).1
  have hne0 : ∀ v ∈ p.vars, ∀ w, lookupA a0 v = some w → w ≠ [] := by
    intro v hv w hw hnil
    have h2 := (hwords0 v hv w hw).2
    rw [hnil] at h2
    have h3 := hlenpos v hv
    simp at h2
    omega
  obtain ⟨hdist0, hagree0, hlen0⟩ :=
    (consistent_iff_spec p (initialDomains p) a0 hwf
      (keys_initialDomains p) hne0).mp hcons0
  have hag : SolAgrees p (fun v => (lookupA a0 v).getD []) := by
    intro x hx y hy o1 o2 ho
    exact hagree0 x hx y hy o1 o2 ho _ _ (hAv x hx) (hAv y hy)
  have hdist : ∀ v1 ∈ p.vars, ∀ v2 ∈ p.vars, v1 ≠ v2 →
      (lookupA a0 v1).getD [] ≠ (lookupA a0 v2).getD [] := by
    intro v1 hv1 v2 hv2 hne12
    exact hdist0 v1 hv1 v2 hv2 hne12 _ _ (hAv v1 hv1) (hAv v2 hv2)
  have hcompat : SolCompat p (fun v => (lookupA a0 v).getD [])
      (domainsPostAC3 p) := by
    have hc0 : SolCompat p (fun v => (lookupA a0 v).getD [])
        (enforce_node_consistency (initialDomains p)) := by
      intro v hv
      rw [lookupD_enforce]
      apply List.mem_filter.mpr
      have h3 : lookupD (initialDomains p) v = p.words :=
        lookupD_map_words p.words p.vars v hv
      rw [h3]
      exact ⟨hAwords v hv, by simp [hlenA v hv]⟩
    unfold domainsPostAC3 ac3Default ac3
    exact (ac3Loop_compat p _ hag _ _
      (fun arc hm => overlapKeys_mem p arc hm) hc0).2
  have hfuel : unassignedCount p [] < (domainsPostAC3 p).length + 1 := by
    have h1 := unassignedCount_le p ([] : Assignment)
    have h2 : (domainsPostAC3 p).length = p.vars.length :=
      keys_eq_length _ _ (keys_domainsPostAC3 p)
    omega
  have h := backtrackF_complete p hwf (fun v => (lookupA a0 v).getD [])
    hlenA hag hdist ((domainsPostAC3 p).length + 1) (domainsPostAC3 p) []
    (keys_domainsPostAC3 p) hcompat
    (by intro v hv w hw; rw [lookupA_nil] at hw; cases hw) hfuel
  rw [solve_eq]
  exact h

theorem mem_overlapKeys_iff (p : Puzzle) (x y : Slot) :
    (x, y) ∈ overlapKeys p ↔ x ∈ p.vars ∧ y ∈ p.vars ∧ y ≠ x := by
  unfold overlapKeys
  rw [List.mem_bind]
  constructor
  · rintro ⟨x', hx', hmem⟩
    obtain ⟨y', hy', heq⟩ := List.mem_map.mp hmem
    obtain ⟨rfl, rfl⟩ : x' = x ∧ y' = y := by
      simpa [Prod.ext_iff] using heq
    exact ⟨hx', (List.mem_filter.mp hy').1,
      by simpa using (List.mem_filter.mp hy').2⟩
  · rintro ⟨hx, hy, hne⟩
    exact ⟨x, hx, List.mem_map.mpr
      ⟨y, List.mem_filter.mpr ⟨hy, by simpa using hne⟩, rfl⟩⟩

theorem LenOK_domainsAfterStep (p : Puzzle) (d : Domains) (var : Slot)
    (v : Word) (hd : LenOK d) (hv : v ∈ lookupD d var) :
    LenOK (domainsAfterStep p d var v) := by
  unfold domainsAfterStep
  split
  · apply LenOK_ac3Loop
    apply LenOK_updateD d var [v] hd
    intro w hw
    have : w = v := by simpa using hw
    rw [this]
    exact LenOK_lookupD d hd var v hv
  · exact hd

theorem backtrackF_LenOK (p : Puzzle) :
    ∀ fuel d a, LenOK d → LenOK (backtrackF p fuel d a).2 := by
  have H := backtrackF.induct p
    (fun fuel d a => LenOK d → LenOK (backtrackF p fuel d a).2)
    (fun fuel d a var values =>
      LenOK d → (∀ w ∈ values, w ∈ lookupD d var) →
        LenOK (tryValues p fuel d a var values).2)
  apply H
  · intro d a hd
    rw [backtrackF_zero]
    exact hd
  · intro d a f hcomp hd
    rw [backtrackF_succ, if_pos hcomp]
    exact hd
  · intro d a f hcomp hsel hd
    rw [backtrackF_succ, if_neg hcomp, hsel]
    exact hd
  · intro d a f hcomp var hsel ih hd
    rw [backtrackF_succ, if_neg hcomp, hsel]
    exact ih hd (fun w hw => (order_domain_values_mem p d var a w).mp hw)
  · intro fuel d a var hd _
    rw [tryValues_nil]
    exact hd
  · intro fuel d a var v rest hcons res0 d30 hbt hres ih1 ih2 hd hvals
    rw [dite_eq_ite] at hbt
    rw [tryValues_cons, if_pos hcons, hbt]
    simp only [hres, if_pos]
    exact ih2 hd (fun w hw => hvals w (List.mem_cons_of_mem _ hw))
  · intro fuel d a var v rest hcons res0 d30 hbt hres ih1 hd hvals
    rw [dite_eq_ite] at hbt
    rw [tryValues_cons, if_pos hcons, hbt]
    simp only [if_neg hres]
    have h1 : LenOK (backtrackF p fuel (domainsAfterStep p d var v)
        ((var, v) :: a)).2 :=
      ih1 (LenOK_domainsAfterStep p d var v hd
        (hvals v (List.mem_cons_self _ _)))
    have hbt2 : backtrackF p fuel (domainsAfterStep p d var v)
        ((var, v) :: a) = (some res0, d30) := hbt
    rw [hbt2] at h1
    exact h1
  · intro fuel d a var v rest hcons d4 hbt ih1 ih2 hd hvals
    rw [dite_eq_ite] at hbt
    rw [tryValues_cons, if_pos hcons, hbt]
    exact ih2 hd (fun w hw => hvals w (List.mem_cons_of_mem _ hw))
  · intro fuel d a var v rest hcons ih hd hvals
    rw [tryValues_cons, if_neg hcons]
    exact ih hd (fun w hw => hvals w (List.mem_cons_of_mem _ hw))

theorem ac3Default_fixpoint (p : Puzzle) (hwf : WFP p) (d d2 : Domains)
    (h : ac3Default p d = (true, d2)) :
    ∀ x ∈ p.vars, ∀ y ∈ p.vars, ∀ o1 o2, p.overlaps x y = some (o1, o2) →
      ∀ w ∈ lookupD d2 x, ∃ v ∈ lookupD d2 y,
        v.getD o2 ' ' = w.getD o1 ' ' := by
  have hinv : ∀ x ∈ p.vars, ∀ y ∈ p.vars, ∀ o : Nat × Nat,
      p.overlaps x y = some o →
      ((x, y) ∈ overlapKeys p ∨ ArcConsB p d x y) := by
    intro x hx y hy o ho
    left
    rw [mem_overlapKeys_iff]
    exact ⟨hx, hy, Ne.symm (WFP_overlap_ne p hwf x y o hx ho)⟩
  have h2 := ac3Loop_fixpoint p hwf d (overlapKeys p) hinv d2 h
  intro x hx y hy o1 o2 ho w hw
  exact h2 x hx y hy o1 o2 ho w hw

theorem ac3Default_sound (p : Puzzle) (d : Domains) (A : Slot → Word)
    (hag : SolAgrees p A) (hc : SolCompat p A d) :
    SolCompat p A (ac3Default p d).2 :=
  (ac3Loop_compat p A hag d (overlapKeys p)
    (fun arc hm => overlapKeys_mem p arc hm) hc).2

/-- Once an arc is locally consistent, `revise` keeps every word and
reports no change. -/
theorem revise_false_of_arcCons (p : Puzzle) (d : Domains) (x y : Slot)
    (h : ArcConsB p d x y) : revise p d x y = (false, d) := by
  rcases revise_cases p d x y with hc | ⟨o1, o2, ho, hlen, _⟩
  · exact hc
  · exfalso
    apply hlen
    have hkeep : reviseKeep d x y o1 o2 = lookupD d x := by
      unfold reviseKeep
      apply List.filter_eq_self.mpr
      intro w hw
      obtain ⟨v, hv, hagree⟩ := h o1 o2 ho w hw
      exact List.any_eq_true.mpr ⟨v, hv, by
        simp only [hagree, beq_self_eq_true]⟩
    rw [hkeep]

/-- A permutation of a two-element list is one of its two arrangements. -/
theorem perm_two {α : Type} [DecidableEq α] {l : List α} {a b : α}
    (h : l.Perm [a, b]) : l = [a, b] ∨ l = [b, a] := by
  match l, h with
  | [], h => exact absurd h.length_eq (by simp)
  | [x], h => exact absurd h.length_eq (by simp)
  | x :: y :: z :: rest, h => exact absurd h.length_eq (by simp)
  | [x, y], h =>
    have hx : x ∈ [a, b] := h.mem_iff.mp (List.mem_cons_self _ _)
    rcases List.mem_cons.mp hx with rfl | hx1
    · have h2 : [y].Perm [b] := h.cons_inv
      rw [List.perm_singleton.mp h2]
      exact Or.inl rfl
    · have hx2 : x = b := by simpa using hx1
      subst hx2
      by_cases hab : a = x
      · subst hab
        have h2 : [y].Perm [a] := h.cons_inv
        rw [List.perm_singleton.mp h2]
        exact Or.inl rfl
      · have hcnt := h.count_eq x
        have hy : y = a := by
          have hym : y ∈ [a, x] :=
            h.mem_iff.mp (List.mem_cons_of_mem _ (List.mem_cons_self _ _))
          rcases List.mem_cons.mp hym with rfl | hy1
          · rfl
          · exfalso
            have hyx : y = x := by simpa using hy1
            subst hyx
            rw [List.count_cons_self, List.count_singleton] at hcnt
            simp [List.count_cons, hab] at hcnt
        rw [hy]
        exact Or.inr rfl

/-! ### Concrete instances for the witnesses and counterexamples -/

/-- A length-1 across Variable at the origin. -/
def slotA : Slot := ⟨0, 0, 1, false⟩

/-- A length-1 down Variable at the origin. -/
def slotB : Slot := ⟨0, 0, 1, true⟩

/-- A length-2 down Variable at the origin. -/
def slotC : Slot := ⟨0, 0, 2, true⟩

/-- A length-3 across Variable at the origin. -/
def slotD3 : Slot := ⟨0, 0, 3, false⟩

/-- Two crossing length-1 Variables sharing their single cell. -/
def p1 : Puzzle :=
  ⟨[slotA, slotB], [['A'], ['B'], ['C']],
   fun x y =>
     if (x = slotA ∧ y = slotB) ∨ (x = slotB ∧ y = slotA) then some (0, 0)
     else none⟩

/-- A length-1 Variable crossing a length-2 and another length-1
Variable. -/
def p3 : Puzzle :=
  ⟨[slotA, slotC, slotB], [['A'], ['B'], ['B','X'], ['B','Y']],
   fun x y =>
     if (x = slotA ∧ y = slotC) ∨ (x = slotC ∧ y = slotA) ∨
        (x = slotA ∧ y = slotB) ∨ (x = slotB ∧ y = slotA) then some (0, 0)
     else none⟩

/-- A single length-3 Variable with a matching vocabulary word. -/
def pF : Puzzle := ⟨[slotD3], [['C','A','T']], fun _ _ => none⟩

/-- A single length-3 Variable whose only vocabulary word is too short. -/
def pI : Puzzle := ⟨[slotD3], [['A','B']], fun _ _ => none⟩

/-- A Domain Store for `p3` with two candidates for `slotA`. -/
def d3dom : Domains :=
  [(slotA, [['A'], ['B']]), (slotC, [['B','X'], ['B','Y']]), (slotB, [['A']])]

/-- A partial assignment for `p3` that already assigns `slotC`. -/
def a3 : Assignment := [(slotC, ['B','X'])]

/-- A Domain Store for `p1` in which `revise slotA slotB` prunes. -/
def d1C4 : Domains := [(slotA, [['A'], ['B']]), (slotB, [['A'], ['C']])]

/-- The Domain Store `d1C4` after that pruning. -/
def d1C4' : Domains := [(slotA, [['A']]), (slotB, [['A'], ['C']])]

/-- An already arc-consistent Domain Store for `p1`. -/
def d5 : Domains := [(slotA, [['A']]), (slotB, [['A']])]

/-- A Domain Store for `p1` on which the incremental `ac3` of `backtrack`
fails after assigning `slotA`. -/
def d9 : Domains := [(slotA, [['A'], ['B']]), (slotB, [['D']])]

/-- `d9` with the domain of `slotA` collapsed to the tried value. -/
def dm9 : Domains := [(slotA, [['A']]), (slotB, [['D']])]

/-- `dm9` after the failing revision empties the domain of `slotB`. -/
def dX9 : Domains := [(slotA, [['A']]), (slotB, [])]

/-- A single length-3 Variable, for the empty-word counterexample. -/
def p7 : Puzzle := ⟨[slotD3], [['C','A','T']], fun _ _ => none⟩

/-- A single length-3 Variable whose domain is already empty. -/
def p6 : Puzzle := ⟨[slotD3], [['A','B']], fun _ _ => none⟩

/-- A Domain Store for `p6` with an empty domain. -/
def d6 : Domains := [(slotD3, [])]

/-- Modelled from the spec's words for claim C3: the conflicts score that
skips neighbours already in the assignment (the code's membership test
`neigbor_word in assignment` compares a word against the Variable keys and
never fires, so the code skips nothing). -/
def claimedScoreC3 (p : Puzzle) (d : Domains) (a : Assignment)
    (var : Slot) (w : Word) : Nat :=
  (neighbors p var).foldl (fun s n =>
    if assignedB a n then s
    else
      match p.overlaps var n with
      | none => s
      | some (o1, o2) =>
        (lookupD d n).foldl (fun s2 nw =>
          if w.getD o1 ' ' != nw.getD o2 ' ' then s2 + 1 else s2) s) 0

/-- Modelled from the spec's words for claim C4: the re-enqueued arcs
`(z, x)` for every neighbour `z` of `x` other than `y` (the code excludes
no neighbour). -/
def claimedRequeueC4 (p : Puzzle) (x y : Slot) : List (Slot × Slot) :=
  ((neighbors p x).filter (fun z => z != y)).map (fun z => (z, x))

/-! ### The claims -/

/-- C1: for every well-formed Puzzle Model with a feasible solution,
`solve` (node consistency, then a full `ac3` pass, then `backtrack` from
the empty assignment) returns an Assignment that is complete and on which
`consistent` is true. -/
theorem c1_solve_feasible (p : Puzzle) (hwf : WFP p) (hfe : Feasible p) :
    ∃ res, (solve p).1 = some res ∧
      assignment_complete (initialDomains p) res = true ∧
      consistent p (initialDomains p) res = true := by
  have h1 := solve_feasible_isSome p hwf hfe
  obtain ⟨res, hres⟩ := Option.isSome_iff_exists.mp h1
  have hsv : solve p = (some res, (solve p).2) := by
    rw [← hres]
  obtain ⟨s1, s2, _⟩ := solve_some_isSolution p res (solve p).2 hsv
  exact ⟨res, hres, s1, s2⟩

/-- Witness for C1 on the one-Variable puzzle `pF`. -/
theorem c1_solve_feasible_witness :
    WFP pF ∧ Feasible pF ∧
    ∃ res, (solve pF).1 = some res ∧
      assignment_complete (initialDomains pF) res = true ∧
      consistent pF (initialDomains pF) res = true := by
  have hwf : WFP pF := by unfold WFP; decide
  have hfe : Feasible pF := by
    refine ⟨[(slotD3, ['C','A','T'])], by decide, by decide, ?_⟩
    intro v hv w hw
    have hv1 : v = slotD3 := by simpa [pF] using hv
    subst hv1
    have hl : lookupA [(slotD3, (['C','A','T'] : Word))] slotD3 =
        some ['C','A','T'] := by decide
    rw [hl] at hw
    obtain rfl := Option.some.inj hw
    decide
  exact ⟨hwf, hfe, c1_solve_feasible pF hwf hfe⟩

/-- C2: for every infeasible Puzzle Model, `solve` returns the no-solution
indicator `none`, and the Domain Store after the unsuccessful `backtrack`
call is exactly its post-`ac3` state: an unsuccessful search leaves no
partial state behind. -/
theorem c2_solve_infeasible_restores (p : Puzzle) (h : ¬ Feasible p) :
    solve p = (none, domainsPostAC3 p) :=
  solve_infeasible p h

/-- Witness for C2 on the puzzle `pI` whose Variable's length matches no
vocabulary word. -/
theorem c2_solve_infeasible_restores_witness :
    ¬ Feasible pI ∧ solve pI = (none, domainsPostAC3 pI) := by
  have h : ¬ Feasible pI := by
    rintro ⟨a, hcomp, _, hwords⟩
    have h1 : assignedB a slotD3 = true := by
      rw [assignment_complete_eq_keys, List.all_eq_true] at hcomp
      exact hcomp slotD3 (by rw [keys_initialDomains]; decide)
    obtain ⟨w, hw⟩ := (assignedB_iff_lookupA a slotD3).mp h1
    have h2 := hwords slotD3 (by decide) w hw
    have h3 : w = ['A','B'] := by simpa [pI] using h2.1
    rw [h3] at h2
    exact absurd h2.2 (by decide)
  exact ⟨h, c2_solve_infeasible_restores pI h⟩

/-- C3 (amended): `order_domain_values` returns the words of `var`'s
domain sorted ascending by the conflicts score actually computed by the
code — which counts disagreeing words over ALL neighbours' domains, since
the `neigbor_word in assignment` test compares a word against Variable
keys and never skips anything.  The claimed score, which lets
already-assigned neighbours contribute zero, orders differently
(see the counterexample). -/
theorem c3_order_domain_values_sorted (p : Puzzle) (d : Domains)
    (var : Slot) (a : Assignment) :
    (order_domain_values p d var a).Perm (lookupD d var) ∧
    (order_domain_values p d var a).Pairwise
      (fun w1 w2 => conflictsScore p d a var w1 ≤ conflictsScore p d a var w2) :=
  ⟨order_domain_values_perm p d var a, order_domain_values_sorted p d var a⟩

/-- Counterexample for C3 as stated: on `p3` the word `['A']` has claimed
score `0` (its only unassigned neighbour agrees) and `['B']` has claimed
score `1`, so the claim puts `['A']` first; the code counts the assigned
neighbour `slotC` as well (scores `2` and `1`) and returns `['B']`
first. -/
theorem c3_counterexample :
    order_domain_values p3 d3dom slotA a3 = [['B'], ['A']] ∧
    assignedB a3 slotC = true ∧
    claimedScoreC3 p3 d3dom a3 slotA ['A'] = 0 ∧
    claimedScoreC3 p3 d3dom a3 slotA ['B'] = 1 ∧
    conflictsScore p3 d3dom a3 slotA ['A'] = 2 ∧
    conflictsScore p3 d3dom a3 slotA ['B'] = 1 := by
  refine ⟨?_, by decide, by decide, by decide, by decide, by decide⟩
  have hperm := order_domain_values_perm p3 d3dom slotA a3
  have hsort := order_domain_values_sorted p3 d3dom slotA a3
  have hdom : lookupD d3dom slotA = [['A'], ['B']] := by decide
  rw [hdom] at hperm
  rcases perm_two hperm with h | h
  · exfalso
    rw [h] at hsort
    have h2 := List.pairwise_cons.mp hsort
    have h3 := h2.1 ['B'] (List.mem_cons_self _ _)
    have hA : conflictsScore p3 d3dom a3 slotA ['A'] = 2 := by decide
    have hB : conflictsScore p3 d3dom a3 slotA ['B'] = 1 := by decide
    rw [hA, hB] at h3
    omega
  · exact h

/-- C4 (amended): when `revise (x, y)` reports a change and `domain(x)` is
non-empty, `ac3` pushes `requeueArcs`, the arcs `(z, x)` for EVERY
neighbour `z` of `x` — including `y` itself, which the claim excludes
(see the counterexample). -/
theorem c4_ac3_requeues_all_neighbors (p : Puzzle) (d d1 : Domains)
    (x y : Slot) (rest : List (Slot × Slot))
    (hrev : revise p d x y = (true, d1))
    (hne : ((lookupD d1 x).length == 0) = false) :
    ac3Loop p d ((x, y) :: rest) = ac3Loop p d1 (rest ++ requeueArcs p x) ∧
    ∀ arc, arc ∈ requeueArcs p x ↔ ∃ z ∈ neighbors p x, arc = (z, x) := by
  constructor
  · rw [ac3Loop_cons_true p d x y rest d1 hrev, if_neg (by simp [hne])]
  · intro arc
    unfold requeueArcs
    constructor
    · intro h
      obtain ⟨z, hz, rfl⟩ := List.mem_map.mp h
      exact ⟨z, hz, rfl⟩
    · rintro ⟨z, hz, rfl⟩
      exact List.mem_map.mpr ⟨z, hz, rfl⟩

/-- Witness for C4 on `p1` and the Domain Store `d1C4`. -/
theorem c4_ac3_requeues_all_neighbors_witness :
    revise p1 d1C4 slotA slotB = (true, d1C4') ∧
    ((lookupD d1C4' slotA).length == 0) = false ∧
    (ac3Loop p1 d1C4 [(slotA, slotB)] =
        ac3Loop p1 d1C4' ([] ++ requeueArcs p1 slotA) ∧
      ∀ arc, arc ∈ requeueArcs p1 slotA ↔
        ∃ z ∈ neighbors p1 slotA, arc = (z, slotA)) :=
  ⟨by decide, by decide,
    c4_ac3_requeues_all_neighbors p1 d1C4 d1C4' slotA slotB []
      (by decide) (by decide)⟩

/-- Counterexample for C4 as stated: in `p1`, after `revise slotA slotB`
prunes without emptying, the re-enqueued arcs include `(slotB, slotA)` —
the very arc the claim excludes — so they differ from the claimed list. -/
theorem c4_counterexample :
    (revise p1 d1C4 slotA slotB).1 = true ∧
    lookupD (revise p1 d1C4 slotA slotB).2 slotA ≠ [] ∧
    slotB ∈ neighbors p1 slotA ∧
    (slotB, slotA) ∈ requeueArcs p1 slotA ∧
    requeueArcs p1 slotA ≠ claimedRequeueC4 p1 slotA slotB := by decide

/-- C5: when `ac3` run with no initial arc set succeeds, every ordered
pair of overlapping Variables is arc-consistent — each remaining word of
`domain(x)` has an agreeing word in `domain(y)` — so a further `revise`
removes nothing, and no word compatible with a full consistent candidate
solution was removed. -/
theorem c5_ac3_fixpoint_sound (p : Puzzle) (d d2 : Domains) (hwf : WFP p)
    (h : ac3Default p d = (true, d2)) :
    (∀ x ∈ p.vars, ∀ y ∈ p.vars, ∀ o1 o2, p.overlaps x y = some (o1, o2) →
      ∀ w ∈ lookupD d2 x, ∃ v ∈ lookupD d2 y,
        v.getD o2 ' ' = w.getD o1 ' ') ∧
    (∀ x ∈ p.vars, ∀ y ∈ p.vars, revise p d2 x y = (false, d2)) ∧
    (∀ A : Slot → Word, SolAgrees p A → SolCompat p A d →
      SolCompat p A d2) := by
  have hfix := ac3Default_fixpoint p hwf d d2 h
  refine ⟨hfix, ?_, ?_⟩
  · intro x hx y hy
    apply revise_false_of_arcCons
    intro o1 o2 ho w hw
    exact hfix x hx y hy o1 o2 ho w hw
  · intro A hag hc
    have h2 := ac3Default_sound p d A hag hc
    rw [h] at h2
    exact h2

/-- Witness for C5 on `p1` with the already arc-consistent store `d5`. -/
theorem c5_ac3_fixpoint_sound_witness :
    WFP p1 ∧ ac3Default p1 d5 = (true, d5) ∧
    ((∀ x ∈ p1.vars, ∀ y ∈ p1.vars, ∀ o1 o2,
        p1.overlaps x y = some (o1, o2) →
        ∀ w ∈ lookupD d5 x, ∃ v ∈ lookupD d5 y,
          v.getD o2 ' ' = w.getD o1 ' ') ∧
      (∀ x ∈ p1.vars, ∀ y ∈ p1.vars, revise p1 d5 x y = (false, d5)) ∧
      (∀ A : Slot → Word, SolAgrees p1 A → SolCompat p1 A d5 →
        SolCompat p1 A d5)) := by
  have hwf : WFP p1 := by unfold WFP; decide
  have hk : overlapKeys p1 = [(slotA, slotB), (slotB, slotA)] := by decide
  have hr1 : revise p1 d5 slotA slotB = (false, d5) := by decide
  have hr2 : revise p1 d5 slotB slotA = (false, d5) := by decide
  have hac : ac3Default p1 d5 = (true, d5) := by
    show ac3 p1 d5 (overlapKeys p1) = (true, d5)
    rw [hk]
    show ac3Loop p1 d5 [(slotA, slotB), (slotB, slotA)] = (true, d5)
    rw [ac3Loop_cons_false p1 d5 slotA slotB [(slotB, slotA)] d5 hr1,
      ac3Loop_cons_false p1 d5 slotB slotA [] d5 hr2, ac3Loop_nil]
  exact ⟨hwf, hac, c5_ac3_fixpoint_sound p1 d5 d5 hwf hac⟩

/-- C6 (amended): `ac3` returning failure does imply some Variable's
domain is empty; but success only guarantees non-empty domains when every
domain was non-empty on entry — `ac3` never checks domains it does not
revise, so a pre-existing empty domain survives a successful run (see the
counterexample). -/
theorem c6_ac3_failure_empties (p : Puzzle) (d : Domains)
    (q : List (Slot × Slot)) (harcs : ∀ arc ∈ q, arc.1 ∈ p.vars) :
    (∀ d2, ac3 p d q = (false, d2) → ∃ x ∈ p.vars, lookupD d2 x = []) ∧
    ((∀ v ∈ p.vars, lookupD d v ≠ []) →
      ∀ d2, ac3 p d q = (true, d2) → ∀ v ∈ p.vars, lookupD d2 v ≠ []) :=
  ⟨fun d2 h => ac3Loop_false_empty p d q harcs d2 h,
   fun hne d2 h => ac3Loop_true_nonempty p d q hne d2 h⟩

/-- Witness for C6 on `p1`, the store `d5` and a one-arc queue. -/
theorem c6_ac3_failure_empties_witness :
    (∀ arc ∈ [(slotB, slotA)], arc.1 ∈ p1.vars) ∧
    ((∀ d2, ac3 p1 d5 [(slotB, slotA)] = (false, d2) →
        ∃ x ∈ p1.vars, lookupD d2 x = []) ∧
      ((∀ v ∈ p1.vars, lookupD d5 v ≠ []) →
        ∀ d2, ac3 p1 d5 [(slotB, slotA)] = (true, d2) →
          ∀ v ∈ p1.vars, lookupD d2 v ≠ [])) :=
  ⟨by decide, c6_ac3_failure_empties p1 d5 [(slotB, slotA)] (by decide)⟩

/-- Counterexample for C6 as stated: on `p6` the Variable `slotD3` starts
with an empty domain and there are no arcs, so `ac3()` succeeds while a
domain is empty — True does not imply all domains are non-empty. -/
theorem c6_counterexample :
    ac3Default p6 d6 = (true, d6) ∧ slotD3 ∈ p6.vars ∧
    lookupD d6 slotD3 = [] := by
  refine ⟨?_, by decide, by decide⟩
  show ac3 p6 d6 (overlapKeys p6) = (true, d6)
  have hk : overlapKeys p6 = [] := by decide
  rw [hk]
  exact ac3Loop_nil p6 d6

/-- C7 (amended): over a well-formed puzzle whose Domain Store is keyed by
the Variables, and for assignments with no empty (falsy) word,
`consistent` is true exactly when the assigned words are pairwise
distinct, agree at every overlap, and have matching lengths.  The code
skips falsy words entirely, so an assignment holding an empty word passes
`consistent` even when its length violates (c) — see the
counterexample. -/
theorem c7_consistent_iff (p : Puzzle) (d : Domains) (a : Assignment)
    (hwf : WFP p) (hkeys : d.map Prod.fst = p.vars)
    (hne : ∀ v ∈ p.vars, ∀ w, lookupA a v = some w → w ≠ []) :
    consistent p d a = true ↔
      PairwiseDistinctWords p a ∧ OverlapsAgree p a ∧ LengthsMatch p a :=
  consistent_iff_spec p d a hwf hkeys hne

/-- Witness for C7 on `p1`, `d5` and the empty assignment. -/
theorem c7_consistent_iff_witness :
    WFP p1 ∧ d5.map Prod.fst = p1.vars ∧
    (∀ v ∈ p1.vars, ∀ w, lookupA ([] : Assignment) v = some w → w ≠ []) ∧
    (consistent p1 d5 [] = true ↔
      PairwiseDistinctWords p1 [] ∧ OverlapsAgree p1 [] ∧
        LengthsMatch p1 []) := by
  have hwf : WFP p1 := by unfold WFP; decide
  have hkeys : d5.map Prod.fst = p1.vars := by decide
  have hne : ∀ v ∈ p1.vars, ∀ w, lookupA ([] : Assignment) v = some w →
      w ≠ [] := by
    intro v hv w hw
    rw [lookupA_nil] at hw
    exact absurd hw (by simp)
  exact ⟨hwf, hkeys, hne, c7_consistent_iff p1 d5 [] hwf hkeys hne⟩

/-- Counterexample for C7 as stated: assigning the empty word to the
length-3 Variable of `p7` violates condition (c), yet `consistent`
returns True because the falsy word is skipped. -/
theorem c7_counterexample :
    consistent p7 [(slotD3, [['C','A','T']])] [(slotD3, ([] : Word))] = true ∧
    lookupA [(slotD3, ([] : Word))] slotD3 = some [] ∧
    ([] : Word).length ≠ slotD3.length ∧
    ¬ LengthsMatch p7 [(slotD3, ([] : Word))] := by
  refine ⟨by decide, by decide, by decide, ?_⟩
  intro h
  have h2 := h slotD3 (by decide) [] (by decide)
  exact absurd h2 (by decide)

/-- C8: after `enforce_node_consistency`, every word in every Variable's
domain has exactly that Variable's length, and the invariant is preserved
by `revise`, by `ac3`, and by `backtrack` (including its snapshot/restore
of the Domain Store). -/
theorem c8_length_invariant (p : Puzzle) (d0 d : Domains) (x y : Slot)
    (q : List (Slot × Slot)) (fuel : Nat) (a : Assignment) (hd : LenOK d) :
    LenOK (enforce_node_consistency d0) ∧
    LenOK (revise p d x y).2 ∧
    LenOK (ac3 p d q).2 ∧
    LenOK (backtrackF p fuel d a).2 :=
  ⟨LenOK_enforce d0, LenOK_revise p d x y hd, LenOK_ac3Loop p d q hd,
   backtrackF_LenOK p fuel d a hd⟩

/-- Witness for C8 on `p1` and the store `d5`. -/
theorem c8_length_invariant_witness :
    LenOK d5 ∧
    (LenOK (enforce_node_consistency d5) ∧
      LenOK (revise p1 d5 slotA slotB).2 ∧
      LenOK (ac3 p1 d5 [(slotA, slotB)]).2 ∧
      LenOK (backtrackF p1 1 d5 []).2) := by
  have hd : LenOK d5 := by unfold LenOK; decide
  exact ⟨hd,
    c8_length_invariant p1 d5 d5 slotA slotB [(slotA, slotB)] 1 [] hd⟩

/-- C9: in `backtrack`, when the tentative assignment is consistent but
the incremental `ac3` fails, the Domain Store is restored to the snapshot
`d`, the tentative entry `(var, v)` is kept, and the recursive call is
still made; the loop then merely continues (or returns the recursive
result), so a propagation failure surfaces only as an eventual
no-solution return. -/
theorem c9_backtrack_keeps_assignment (p : Puzzle) (fuel : Nat)
    (d : Domains) (a : Assignment) (var : Slot) (v : Word)
    (rest : List Word)
    (hcons : consistent p d ((var, v) :: a) = true)
    (hfail : (ac3 p (updateD d var [v])
        (get_neighbors_overlap_queue p var)).1 = false) :
    (∀ res d3, backtrackF p fuel d ((var, v) :: a) = (some res, d3) →
      tryValues p fuel d a var (v :: rest) =
        if res.isEmpty then tryValues p fuel d a var rest
        else (some res, d3)) ∧
    (∀ d3, backtrackF p fuel d ((var, v) :: a) = (none, d3) →
      tryValues p fuel d a var (v :: rest) =
        tryValues p fuel d a var rest) := by
  have hd' : (if (ac3 p (updateD d var [v])
        (get_neighbors_overlap_queue p var)).1
      then (ac3 p (updateD d var [v]) (get_neighbors_overlap_queue p var)).2
      else make_domains_copy d) = d := by
    rw [if_neg (by simp [hfail])]
    rfl
  constructor
  · intro res d3 hbt
    rw [tryValues_cons, if_pos hcons, hd', hbt]
    simp only [make_domains_copy]
  · intro d3 hbt
    rw [tryValues_cons, if_pos hcons, hd', hbt]
    simp only [make_domains_copy]

/-- Witness for C9 on `p1` and the store `d9`, where assigning `['A']` to
`slotA` is consistent but the incremental `ac3` empties `slotB`'s
domain. -/
theorem c9_backtrack_keeps_assignment_witness :
    consistent p1 d9 [(slotA, ['A'])] = true ∧
    (ac3 p1 (updateD d9 slotA [['A']])
        (get_neighbors_overlap_queue p1 slotA)).1 = false ∧
    ((∀ res d3, backtrackF p1 1 d9 [(slotA, ['A'])] = (some res, d3) →
        tryValues p1 1 d9 [] slotA [['A']] =
          if res.isEmpty then tryValues p1 1 d9 [] slotA []
          else (some res, d3)) ∧
      (∀ d3, backtrackF p1 1 d9 [(slotA, ['A'])] = (none, d3) →
        tryValues p1 1 d9 [] slotA [['A']] =
          tryValues p1 1 d9 [] slotA [])) := by
  have hcons : consistent p1 d9 [(slotA, ['A'])] = true := by decide
  have hq : get_neighbors_overlap_queue p1 slotA = [(slotB, slotA)] := by
    decide
  have hupd : updateD d9 slotA [['A']] = dm9 := by decide
  have hrev : revise p1 dm9 slotB slotA = (true, dX9) := by decide
  have hfail : (ac3 p1 (updateD d9 slotA [['A']])
      (get_neighbors_overlap_queue p1 slotA)).1 = false := by
    rw [hupd, hq]
    show (ac3Loop p1 dm9 [(slotB, slotA)]).1 = false
    rw [ac3Loop_cons_true p1 dm9 slotB slotA [] dX9 hrev]
    rw [if_pos (by decide)]
  exact ⟨hcons, hfail,
    c9_backtrack_keeps_assignment p1 1 d9 [] slotA ['A'] [] hcons hfail⟩

/-- C10: the over-wide worklist seedings are behaviourally equivalent to
the narrow ones — filtering the default seeding (every ordered pair of
distinct Variables) or the `get_neighbors_overlap_queue` seeding down to
genuinely overlapping arcs changes neither the result nor the final
Domain Store of `ac3`, and the filtered neighbour queue holds exactly the
arcs `(z, var)` for the neighbours `z` of `var`. -/
theorem c10_worklist_equivalence (p : Puzzle) (d : Domains) (var : Slot)
    (hvar : var ∈ p.vars) :
    ac3Default p d = ac3 p d ((overlapKeys p).filter (overlapArc p)) ∧
    ac3 p d (get_neighbors_overlap_queue p var) =
      ac3 p d ((get_neighbors_overlap_queue p var).filter (overlapArc p)) ∧
    (∀ arc, arc ∈ (get_neighbors_overlap_queue p var).filter
        (overlapArc p) ↔
      arc.1 ∈ neighbors p var ∧ arc.2 = var) := by
  refine ⟨ac3Loop_filter_overlap p d (overlapKeys p),
    ac3Loop_filter_overlap p d (get_neighbors_overlap_queue p var), ?_⟩
  intro arc
  obtain ⟨z, w⟩ := arc
  simp only [List.mem_filter, get_neighbors_overlap_queue,
    mem_overlapKeys_iff, mem_neighbors_iff, overlapArc, beq_iff_eq]
  constructor
  · rintro ⟨⟨⟨hz, hw, hne⟩, hwv⟩, hov⟩
    subst hwv
    exact ⟨⟨hz, Ne.symm hne, hov⟩, rfl⟩
  · rintro ⟨⟨hz, hne, hov⟩, hwv⟩
    subst hwv
    exact ⟨⟨⟨hz, hvar, Ne.symm hne⟩, rfl⟩, hov⟩

/-- Witness for C10 on `p1`, the store `d5` and the Variable `slotA`. -/
theorem c10_worklist_equivalence_witness :
    slotA ∈ p1.vars ∧
    (ac3Default p1 d5 = ac3 p1 d5 ((overlapKeys p1).filter (overlapArc p1)) ∧
      ac3 p1 d5 (get_neighbors_overlap_queue p1 slotA) =
        ac3 p1 d5 ((get_neighbors_overlap_queue p1 slotA).filter
          (overlapArc p1)) ∧
      (∀ arc, arc ∈ (get_neighbors_overlap_queue p1 slotA).filter
          (overlapArc p1) ↔
        arc.1 ∈ neighbors p1 slotA ∧ arc.2 = slotA)) :=
  ⟨by decide, c10_worklist_equivalence p1 d5 slotA (by decide)⟩

end CrosswordCSP
